import Mathlib

/-!
Verification of the slackbackup repository (singleheart/slackbackup).

This file shallowly embeds the core of `main.py` (together with the shared
helpers duplicated in `split_messages_by_date.py` and `fix_self_dm.py`) into
Lean and proves the spec's claims about it.

Modelling conventions:
* Python strings are `String`/`List Char` (code points).
* Python `float(...)` applied to Slack timestamps is modelled exactly over `ℚ`
  (finite decimal/scientific literals; the `inf`/`nan` literals and underscore
  digit separators accepted by CPython are outside the model's scope).
* Python's stable `list.sort(key=...)`/`sorted(key=...)` is embedded as
  `List.insertionSort` by the key order: a stable sort of a decidable total
  preorder is extensionally unique, so any stable sort represents Timsort.
* Python `dict` is an association list with insertion-order keys; inserting an
  existing key updates the value in place, a new key is appended.
* Fallible code (uncaught `ValueError` / `KeyError` / `SlackApiError`) is
  modelled with `Option`/explicit result types.
-/

/-! ### Python numeric literal parsing -/

/-- Characters stripped by `float()`/`int()` around a literal. -/
def pyWs (c : Char) : Bool :=
  c = ' ' ∨ c = '\t' ∨ c = '\n' ∨ c = '\r' ∨ c = '\x0b' ∨ c = '\x0c'

/-- Decimal digit test. -/
def isDigitCh (c : Char) : Bool := '0' ≤ c ∧ c ≤ '9'

/-- Strip leading and trailing whitespace. -/
def pyStripWs (cs : List Char) : List Char :=
  ((cs.dropWhile pyWs).reverse.dropWhile pyWs).reverse

/-- Read an optional sign, returning the sign (as ±1) and the rest. -/
def readSign : List Char → Int × List Char
  | '+' :: r => (1, r)
  | '-' :: r => (-1, r)
  | r => (1, r)

/-- Numeric value of a digit string. -/
def digitsVal (cs : List Char) : Nat :=
  cs.foldl (fun a c => a * 10 + (c.toNat - '0'.toNat)) 0

/-- Python `int(s)` on a decimal string literal: optional surrounding
whitespace, optional sign, then a nonempty digit run; `none` models an
uncaught `ValueError`. -/
def pyInt (s : String) : Option Int :=
  let cs := pyStripWs s.toList
  let (sg, cs) := readSign cs
  if cs ≠ [] ∧ cs.all isDigitCh then some (sg * (digitsVal cs : Int)) else none

/-- Parse the digits of an exponent (optional sign, nonempty digit run,
nothing left over). -/
def readExponentDigits (r0 : List Char) : Option Int :=
  let (sg, r) := readSign r0
  if r ≠ [] ∧ r.all isDigitCh then some (sg * (digitsVal r : Int)) else none

/-- Parse an optional exponent suffix (`e`/`E`, optional sign, nonempty digit
run). Returns the exponent and requires the input to be fully consumed. -/
def readExponent : List Char → Option Int
  | [] => some 0
  | 'e' :: r => readExponentDigits r
  | 'E' :: r => readExponentDigits r
  | _ => none

/-- Python `float(s)` on a finite decimal/scientific literal, with the exact
rational value: optional whitespace and sign, integer part and/or fractional
part (at least one nonempty), optional exponent. `none` models an uncaught
`ValueError`. -/
def pyFloat (s : String) : Option ℚ :=
  let cs := pyStripWs s.toList
  let (sg, cs) := readSign cs
  let (ip, cs) := cs.span isDigitCh
  let (fp, cs) :=
    match cs with
    | '.' :: r => r.span isDigitCh
    | _ => (([] : List Char), cs)
  if ip = [] ∧ fp = [] then none
  else
    match readExponent cs with
    | none => none
    | some e =>
        some ((sg : ℚ) * ((digitsVal ip : ℚ) + (digitsVal fp : ℚ) / (10 : ℚ) ^ fp.length)
          * (10 : ℚ) ^ e)

/-! ### UTC calendar date from a Unix timestamp (main.py `timestamp_to_date`) -/

/-- Civil (proleptic Gregorian) date from days since the Unix epoch, following
the standard era-based algorithm used by C++/CPython date conversions. -/
def civilFromDays (z0 : Int) : Int × Int × Int :=
  let z := z0 + 719468
  let era := z.fdiv 146097
  let doe := z - era * 146097
  let yoe := (doe - doe.fdiv 1460 + doe.fdiv 36524 - doe.fdiv 146096).fdiv 365
  let y := yoe + era * 400
  let doy := doe - (365 * yoe + yoe.fdiv 4 - yoe.fdiv 100)
  let mp := (5 * doy + 2).fdiv 153
  let d := doy - (153 * mp + 2).fdiv 5 + 1
  let m := mp + (if mp < 10 then 3 else -9)
  (y + (if m ≤ 2 then 1 else 0), m, d)

/-- Zero-pad a nonnegative integer to the given width. -/
def padNum (width : Nat) (n : Int) : String :=
  let s := toString n.toNat
  String.mk (List.replicate (width - s.length) '0') ++ s

/-- Whole seconds used by `datetime.fromtimestamp`: the timestamp's floor,
with CPython's round-half-even microsecond rounding carrying a fractional
part of at least `1 - 1/2000000` into the next second. -/
def fromtimestampSeconds (q : ℚ) : Int :=
  if (1 : ℚ) - 1 / 2000000 ≤ q - (⌊q⌋ : ℚ) then ⌊q⌋ + 1 else ⌊q⌋

/-- Render the civil date of a day number, or `none` when the `datetime`
constructor would raise `ValueError` (year outside 1..9999). -/
def utcDateFromDays (z : Int) : Option String :=
  if 1 ≤ (civilFromDays z).1 ∧ (civilFromDays z).1 ≤ 9999 then
    some (padNum 4 (civilFromDays z).1 ++ "-" ++ padNum 2 (civilFromDays z).2.1 ++ "-" ++
      padNum 2 (civilFromDays z).2.2)
  else none

/-- UTC `YYYY-MM-DD` string of a numeric Unix timestamp, or `none` on a
`datetime` range error. -/
def utcDateOf (q : ℚ) : Option String :=
  utcDateFromDays ((fromtimestampSeconds q).fdiv 86400)

/-- main.py lines 51-60 (same code in split_messages_by_date.py lines 10-19):
convert a timestamp string to a UTC date, with `ValueError` (either from
`float` or from the `datetime` constructor) caught and mapped to
`"unknown-date"`. -/
def timestamp_to_date (ts : String) : String :=
  match pyFloat ts with
  | none => "unknown-date"
  | some q =>
      match utcDateOf q with
      | none => "unknown-date"
      | some d => d

/-! ### Messages and date partitioning (main.py `split_messages_by_date`) -/

/-- A Slack message restricted to the fields the program reads. `text` stands
for the rest of the payload so that distinct messages with equal timestamps
can be represented. -/
structure Message where
  ts : Option String := none
  thread_ts : Option String := none
  reply_count : Nat := 0
  text : String := ""
deriving DecidableEq, Repr

/-- Python truthiness of `msg.get("ts")` for an optional string field. -/
def truthyTs (m : Message) : Bool :=
  match m.ts with
  | some s => s ≠ ""
  | none => false

/-- Date key the code computes for a message (meaningful when `truthyTs`). -/
def msgDateKey (m : Message) : String := timestamp_to_date (m.ts.getD "")

/-- Sort key `float(x.get("ts", "0"))` of main.py line 76; `none` models the
uncaught `ValueError` raised inside the sort. -/
def sortKeyTs (m : Message) : Option ℚ := pyFloat (m.ts.getD "0")

/-- Numeric timestamp value used for ordering (total stand-in for `sortKeyTs`;
they agree whenever the key parses). -/
def tsNum (m : Message) : ℚ := (sortKeyTs m).getD 0

/-- Key order on messages used by the per-group sort. -/
def tsLe (a b : Message) : Prop := tsNum a ≤ tsNum b

instance : DecidableRel tsLe := fun a b => inferInstanceAs (Decidable (tsNum a ≤ tsNum b))

instance : IsTotal Message tsLe := ⟨fun a b => le_total (tsNum a) (tsNum b)⟩

instance : IsTrans Message tsLe := ⟨fun _ _ _ h h' => le_trans h h'⟩

/-- Append a message to the `defaultdict(list)` group of key `k` (insertion
order of keys preserved, new keys appended at the end). -/
def insertGroup (acc : List (String × List Message)) (k : String) (m : Message) :
    List (String × List Message) :=
  if acc.any (fun p => p.1 = k) then
    acc.map (fun p => if p.1 = k then (p.1, p.2 ++ [m]) else p)
  else acc ++ [(k, [m])]

/-- The grouping loop of main.py lines 66-72: messages with a falsy `ts` are
skipped, the rest are appended to the group of their date key. -/
def groupByDate (messages : List Message) : List (String × List Message) :=
  messages.foldl
    (fun acc m =>
      match m.ts with
      | none => acc
      | some s => if s = "" then acc else insertGroup acc (timestamp_to_date s) m)
    []

/-- The in-place sort of one date group (main.py line 76). `list.sort`
evaluates the key of every element first, so it raises `ValueError` (modelled
as `none`) as soon as any element's `ts` does not parse as a float. -/
def sortGroup (g : List Message) : Option (List Message) :=
  if g.all (fun m => (sortKeyTs m).isSome) then some (g.insertionSort tsLe) else none

/-- main.py lines 62-78 (identical in split_messages_by_date.py lines 21-37):
group messages by UTC date, then sort each group by numeric `ts`; `none`
models the uncaught `ValueError` from the sort key. -/
def split_messages_by_date (messages : List Message) :
    Option (List (String × List Message)) :=
  (groupByDate messages).mapM (fun p => (sortGroup p.2).map (fun g => (p.1, g)))

/-! ### Filename sanitization (main.py `sanitize`) -/

/-- Characters the regex `[/\\:*?"<>|\x00-\x1f\x7f]` of main.py line 29
matches. -/
def forbiddenChar (c : Char) : Bool :=
  c = '/' ∨ c = '\\' ∨ c = ':' ∨ c = '*' ∨ c = '?' ∨ c = '"' ∨ c = '<' ∨ c = '>' ∨
    c = '|' ∨ c.val ≤ 0x1f ∨ c.val = 0x7f

/-- Collapse each run of consecutive underscores to a single underscore
(`re.sub(r'_+', '_', s)`). -/
def collapseUnderscores : List Char → List Char
  | [] => []
  | [a] => [a]
  | a :: b :: rest =>
      if a = '_' ∧ b = '_' then collapseUnderscores (b :: rest)
      else a :: collapseUnderscores (b :: rest)

/-- Membership in the strip set of `strip(' _')`. -/
def stripSet (c : Char) : Bool := c = ' ' ∨ c = '_'

/-- Python `strip(' _')`: remove spaces and underscores from both ends. -/
def stripSpaceUnderscore (l : List Char) : List Char :=
  ((l.dropWhile stripSet).reverse.dropWhile stripSet).reverse

/-- UTF-8 byte length of a code point list (`len(s.encode('utf-8'))`). -/
def utf8Len (l : List Char) : Nat := (l.map Char.utf8Size).sum

/-- The truncation loop of main.py lines 45-46, driven by explicit fuel (one
character is removed per iteration, so `l.length` steps always suffice). -/
def truncateLoop : Nat → List Char → List Char
  | 0, l => l
  | fuel + 1, l => if 200 < utf8Len l ∧ l ≠ [] then truncateLoop fuel l.dropLast else l

/-- Python `rstrip('_')`. -/
def rstripUnderscore (l : List Char) : List Char :=
  (l.reverse.dropWhile (fun c => c = '_')).reverse

/-- main.py lines 21-49: replace forbidden characters by `_`, collapse
underscore runs, strip surrounding spaces/underscores, fall back to
`unnamed_channel` when empty, and cap the UTF-8 length at 200 bytes
(re-stripping trailing underscores after truncating). -/
def sanitize (name : List Char) : List Char :=
  let s1 := name.map (fun c => if forbiddenChar c then '_' else c)
  let s2 := collapseUnderscores s1
  let s3 := stripSpaceUnderscore s2
  if s3 = [] then "unnamed_channel".toList
  else
    let s4 :=
      if 200 < utf8Len s3 then rstripUnderscore (truncateLoop s3.length s3) else s3
    if s4 = [] then "unnamed_channel".toList else s4

/-- String-level wrapper of `sanitize`. -/
def sanitizeStr (s : String) : String := String.mk (sanitize s.toList)

/-! ### Rate-limit retry (main.py `backoff_retry`) -/

/-- The part of a `SlackApiError` response the retry loop reads. -/
structure SlackResponse where
  status_code : Nat
  retry_after : Option String := none
deriving DecidableEq, Repr

/-- Outcome of one attempt of the wrapped API call. -/
inductive ApiOutcome where
  | ok (v : Nat)
  | apiError (response : Option SlackResponse)
deriving DecidableEq, Repr

/-- Observable result of `backoff_retry`, with the recorded sleep durations.
`valueError` is the uncaught exception from `int()` on a malformed
`Retry-After` header; `hung` marks an exhausted outcome sequence (the loop is
still retrying). -/
inductive RetryResult where
  | ok (v : Nat) (sleeps : List Int)
  | apiError (response : Option SlackResponse) (sleeps : List Int)
  | valueError (sleeps : List Int)
  | hung (sleeps : List Int)
deriving DecidableEq, Repr

/-- main.py lines 80-89 over an explicit sequence of attempt outcomes: retry
(after sleeping `int(headers.get("Retry-After", "5"))` seconds) exactly on a
`SlackApiError` whose response has status 429; re-raise anything else. -/
def backoff_retry : List ApiOutcome → List Int → RetryResult
  | [], sleeps => .hung sleeps
  | .ok v :: _, sleeps => .ok v sleeps
  | .apiError none :: _, sleeps => .apiError none sleeps
  | .apiError (some r) :: rest, sleeps =>
      if r.status_code = 429 then
        match pyInt (r.retry_after.getD "5") with
        | some w => backoff_retry rest (sleeps ++ [w])
        | none => .valueError sleeps
      else .apiError (some r) sleeps

/-- Sleep duration the loop uses for one 429 response whose header (if
present) parses. -/
def waitOf (r : SlackResponse) : Int :=
  match r.retry_after with
  | none => 5
  | some s => (pyInt s).getD 5

/-! ### Thread expansion (main.py `_collect_messages` / `fetch_thread`) -/

/-- Python `dict` insertion: an existing key keeps its position and gets the
new value, a new key is appended. -/
def pyDictInsert {κ β : Type} [DecidableEq κ] (acc : List (κ × β)) (k : κ) (v : β) :
    List (κ × β) :=
  if acc.any (fun p => p.1 = k) then acc.map (fun p => if p.1 = k then (p.1, v) else p)
  else acc ++ [(k, v)]

/-- The comprehension `{m["ts"]: m for m in thread}` of main.py line 218;
`none` models the `KeyError` when a thread message lacks `ts`. -/
def byTsDict (thread : List Message) : Option (List (String × Message)) :=
  thread.foldlM
    (fun acc m =>
      match m.ts with
      | some t => some (pyDictInsert acc t m)
      | none => none)
    []

/-- One iteration of the loop of main.py lines 211-219: append the history
message, and when it is an expandable thread root (`thread_ts == ts`,
`reply_count > 0`) also append every deduplicated reply whose `ts` differs
from the root's. `threads` models the paginated `conversations.replies`
responses (`fetch_thread`, lines 195-206); `none` models a `KeyError`. -/
def collect_step (threads : String → List Message) (acc : List Message) (msg : Message) :
    Option (List Message) :=
  let acc := acc ++ [msg]
  if msg.thread_ts = msg.ts ∧ 0 < msg.reply_count then
    match msg.ts with
    | none => none
    | some t =>
        (byTsDict (threads t)).map
          (fun d => acc ++ (d.filter (fun p => p.1 ≠ t)).map Prod.snd)
  else some acc

/-- main.py lines 208-220: collect the whole history and expand threads. -/
def collect_messages (threads : String → List Message) (history : List Message) :
    Option (List Message) :=
  history.foldlM (collect_step threads) []

/-! ### Metadata records (main.py `_generate_metadata`, `merge_metadata`) -/

/-- JSON values as the program builds and consumes them (strings, integers,
booleans, string arrays such as `members`, and the flat string objects Slack
uses for `topic`/`purpose`). -/
inductive JValue where
  | s : String → JValue
  | i : Int → JValue
  | b : Bool → JValue
  | strs : List String → JValue
  | dict : List (String × String) → JValue
deriving DecidableEq, Repr

/-- Python truthiness of a `JValue`. -/
def jTruthy : JValue → Bool
  | .s v => v ≠ ""
  | .i v => v ≠ 0
  | .b v => v
  | .strs v => ¬v.isEmpty
  | .dict v => ¬v.isEmpty

/-- A metadata record is the Python dict built by `_generate_metadata` (or
read back from a metadata file): fields in insertion order. -/
abbrev MetaRecord : Type := List (String × JValue)

/-- Dictionary field lookup, `r["k"]`/`r.get("k")`. -/
def lookupField (r : MetaRecord) (k : String) : Option JValue :=
  (List.find? (fun p => p.1 = k) r).map Prod.snd

/-- Whether the record has an `id` key (its absence makes `merge_metadata`
raise `KeyError`). -/
def hasId (r : MetaRecord) : Bool := (lookupField r "id").isSome

/-- The `id` value used as the dict key in `merge_metadata` (meaningful when
`hasId`). -/
def idVal (r : MetaRecord) : JValue := (lookupField r "id").getD (.s "")

/-- The string sort key `x["id"]` (the program only ever stores string ids:
`_generate_metadata` sets `id` to the conversation id). -/
def idKey (r : MetaRecord) : String :=
  match lookupField r "id" with
  | some (.s v) => v
  | _ => ""

/-- The id sort key as a code-point sequence (Python compares strings
lexicographically by code point). -/
def idChars (r : MetaRecord) : List Char := (idKey r).toList

/-- Record order by id used by `sorted(..., key=lambda x: x["id"])`. -/
def idLe (a b : MetaRecord) : Prop := idChars a ≤ idChars b

instance : DecidableRel idLe := fun a b => inferInstanceAs (Decidable (idChars a ≤ idChars b))

instance : IsTotal MetaRecord idLe := ⟨fun a b => le_total (idChars a) (idChars b)⟩

instance : IsTrans MetaRecord idLe := ⟨fun _ _ _ h h' => le_trans h h'⟩

/-- main.py lines 144-154: index the existing records by id, overlay the new
records (new wins per id), and return the values sorted by id. `none` models
the `KeyError` raised when any record lacks `id`. -/
def merge_metadata (existing_meta new_meta : List MetaRecord) : Option (List MetaRecord) :=
  if (existing_meta ++ new_meta).all hasId then
    some ((((existing_meta ++ new_meta).foldl (fun acc r => pyDictInsert acc (idVal r) r)
      []).map Prod.snd).insertionSort idLe)
  else none

/-! ### Conversations (main.py `conv_label`, `_generate_metadata`,
`_classify_metadata`) -/

/-- A conversation record restricted to the fields the program reads. -/
structure Conv where
  id : String
  name : Option String := none
  is_im : Bool := false
  is_mpim : Bool := false
  is_private : Bool := false
  created : Option Int := none
  creator : Option String := none
  is_archived : Option Bool := none
  is_general : Option Bool := none
  topic : Option JValue := none
  purpose : Option JValue := none
deriving DecidableEq, Repr

/-- main.py lines 156-167: DMs use the raw channel id as the directory label,
other conversations use the sanitized name (falling back to the id when the
name is absent or empty). -/
def conv_label (conv : Conv) : String :=
  if conv.is_im then conv.id
  else
    sanitizeStr
      (match conv.name with
      | some n => if n = "" then conv.id else n
      | none => conv.id)

/-- The self-DM normalization of main.py lines 234-237: a DM whose resolved
member list has exactly one entry is stored with that entry duplicated. -/
def selfDmMembers (is_im : Bool) : List String → List String
  | [u] => if is_im then [u, u] else [u]
  | ms => ms

/-- The `created` field insertion of main.py lines 228-229 (`conv.get`
truthiness: a `0` value is falsy and omitted). -/
def createdField (conv : Conv) : MetaRecord :=
  match conv.created with
  | some c => if c ≠ 0 then [("created", .i c)] else []
  | none => []

/-- The extra fields of main.py lines 242-253, added only for non-DM
conversations (each guarded by truthiness, or by key presence for
`is_archived`/`is_general`). -/
def nonImFields (conv : Conv) (label : String) : MetaRecord :=
  if conv.is_im then [] else
    [("name", JValue.s label)] ++
    (match conv.creator with
      | some c => if c ≠ "" then [("creator", JValue.s c)] else []
      | none => []) ++
    (match conv.is_archived with
      | some v => [("is_archived", JValue.b v)]
      | none => []) ++
    (match conv.is_general with
      | some v => [("is_general", JValue.b v)]
      | none => []) ++
    (match conv.topic with
      | some t => if jTruthy t then [("topic", t)] else []
      | none => []) ++
    (match conv.purpose with
      | some p => if jTruthy p then [("purpose", p)] else []
      | none => [])

/-- main.py lines 222-255: build the metadata dict for a conversation, with
`members` the resolved member list (`get_members` result). -/
def generate_metadata (conv : Conv) (label : String) (members : List String) : MetaRecord :=
  ("id", JValue.s conv.id) :: createdField conv ++
    [("members", JValue.strs (selfDmMembers conv.is_im members))] ++ nonImFields conv label

/-- The four metadata kinds of main.py. -/
inductive Kind where
  | channels
  | groups
  | dms
  | mpims
deriving DecidableEq, Repr

/-- main.py lines 257-270: classification order is `is_im`, then `is_mpim`,
then `is_private`, else a public channel. -/
def classify_metadata (conv : Conv) : Kind :=
  if conv.is_im then .dms
  else if conv.is_mpim then .mpims
  else if conv.is_private then .groups
  else .channels

/-! ### Backup run model (main.py `_process_conversation`, `_save_metadata`,
`run`) -/

/-- The slice of the filesystem the engine touches: for each conversation
directory (keyed by label) the set of `.json` file names it contains. The
engine only ever writes `<date>.json` files inside conversation directories,
so every listed file matches the `*.json` glob of `_is_already_backed_up`. -/
structure FS where
  dirs : List (String × List String)
deriving DecidableEq, Repr

/-- Files present in a directory (empty list when the directory is absent). -/
def FS.filesOf (fs : FS) (label : String) : List String :=
  ((fs.dirs.find? (fun p => p.1 = label)).map Prod.snd).getD []

/-- Directory existence. -/
def FS.hasDir (fs : FS) (label : String) : Bool :=
  (fs.dirs.find? (fun p => p.1 = label)).isSome

/-- `mkdir(parents=True, exist_ok=True)`. -/
def FS.mkdir (fs : FS) (label : String) : FS :=
  if fs.hasDir label then fs else ⟨fs.dirs ++ [(label, [])]⟩

/-- Create (or overwrite) the named files inside a directory. -/
def FS.writeFiles (fs : FS) (label : String) (names : List String) : FS :=
  ⟨fs.dirs.map (fun p =>
    if p.1 = label then
      (p.1, names.foldl (fun fls n => if n ∈ fls then fls else fls ++ [n]) p.2)
    else p)⟩

/-- main.py lines 286-295: a conversation counts as backed up exactly when its
directory exists and holds at least one `.json` file. -/
def is_already_backed_up (fs : FS) (conversation_dir : String) : Bool :=
  fs.hasDir conversation_dir ∧ fs.filesOf conversation_dir ≠ []

/-- main.py lines 272-284: an empty message list writes nothing; otherwise one
`<date>.json` file is written per date group. `none` models the uncaught
`ValueError` from `split_messages_by_date`. -/
def save_messages_by_date (messages : List Message) (conversation_dir : String)
    (fs : FS) : Option FS :=
  if messages.isEmpty then some fs
  else
    (split_messages_by_date messages).map
      (fun gs => fs.writeFiles conversation_dir (gs.map (fun p => p.1 ++ ".json")))

/-- A conversation together with its upstream state (resolved members and the
message set `_collect_messages` produces for it), which is unchanged between
the two runs the idempotence claim compares. -/
structure ConvData where
  conv : Conv
  members : List String
  messages : List Message
deriving DecidableEq, Repr

/-- main.py lines 297-322: skip a backed-up conversation unless forced;
otherwise create its directory, generate and classify its metadata record,
and save its messages by date. Returns the new filesystem and the classified
records accumulated so far. -/
def process_conversation (force : Bool) (st : FS × List (Kind × MetaRecord))
    (cd : ConvData) : Option (FS × List (Kind × MetaRecord)) :=
  let label := conv_label cd.conv
  if ¬force ∧ is_already_backed_up st.1 label then some st
  else
    let fs := st.1.mkdir label
    let metadata := generate_metadata cd.conv label cd.members
    let recs := st.2 ++ [(classify_metadata cd.conv, metadata)]
    (save_messages_by_date cd.messages label fs).map (fun fs2 => (fs2, recs))

/-- The conversation loop of main.py lines 380-387. -/
def runConversations (force : Bool) (convs : List ConvData) (fs : FS) :
    Option (FS × List (Kind × MetaRecord)) :=
  convs.foldlM (process_conversation force) (fs, [])

/-- The four on-disk metadata files. -/
structure MetaFiles where
  channels : List MetaRecord
  groups : List MetaRecord
  dms : List MetaRecord
  mpims : List MetaRecord
deriving DecidableEq, Repr

/-- Records classified under one kind during the run. -/
def recsOf (recs : List (Kind × MetaRecord)) (k : Kind) : List MetaRecord :=
  (recs.filter (fun p => p.1 = k)).map Prod.snd

/-- main.py lines 324-348: merge each kind's existing metadata file with the
newly classified records and persist the result. -/
def save_metadata (mf : MetaFiles) (recs : List (Kind × MetaRecord)) : Option MetaFiles := do
  let channels ← merge_metadata mf.channels (recsOf recs .channels)
  let groups ← merge_metadata mf.groups (recsOf recs .groups)
  let dms ← merge_metadata mf.dms (recsOf recs .dms)
  let mpims ← merge_metadata mf.mpims (recsOf recs .mpims)
  some ⟨channels, groups, dms, mpims⟩

/-- One whole backup run (main.py `run`, message/metadata portions): process
every conversation, then merge and persist the metadata files. -/
def backupRun (force : Bool) (convs : List ConvData) (fs : FS) (mf : MetaFiles) :
    Option (FS × MetaFiles) :=
  (runConversations force convs fs).bind
    (fun st => (save_metadata mf st.2).map (fun mf2 => (st.1, mf2)))

/-! ### Derived predicates used by the statements -/

/-- A message a grouping pass files under key `k`: its `ts` is truthy and its
date key is `k`. -/
def keyedTo (m : Message) (k : String) : Bool :=
  truthyTs m && (msgDateKey m = k)

/-- Group of key `k` in an association list of date groups (empty when the
key is absent). -/
def lookupG (gs : List (String × List Message)) (k : String) : List Message :=
  ((gs.find? (fun p => p.1 = k)).map Prod.snd).getD []

/-- The thread-expansion condition of main.py line 214. -/
def expandCond (m : Message) : Bool :=
  (m.thread_ts = m.ts) && (0 < m.reply_count)

/-- The deduplicated thread replies appended for an expanded root (the
replies response minus every message carrying the root's own `ts`). -/
def repliesOf (threads : String → List Message) (m : Message) : List Message :=
  match m.ts with
  | some t => (threads t).filter (fun x => x.ts ≠ some t)
  | none => []

/-- What one history message contributes to `_collect_messages` output. -/
def contribution (threads : String → List Message) (m : Message) : List Message :=
  m :: (if expandCond m then repliesOf threads m else [])

/-- Filesystem growth order: directories persist and files persist. -/
def FS.le (a b : FS) : Prop :=
  ∀ label, (a.hasDir label = true → b.hasDir label = true) ∧
    ∀ f ∈ a.filesOf label, f ∈ b.filesOf label

/-- Directory labels are distinct (holds initially and is preserved by every
filesystem operation the engine performs). -/
def FS.keysNodup (fs : FS) : Prop := (fs.dirs.map Prod.fst).Nodup

/-- The conversation directory label of a conversation. -/
def labelOf (cd : ConvData) : String := conv_label cd.conv

/-- Whether saving this conversation's messages can complete (vacuously when
there are no messages). -/
def splitOk (cd : ConvData) : Prop :=
  cd.messages.isEmpty = true ∨ (split_messages_by_date cd.messages).isSome = true

/-- The date-partition file names a processed conversation ends up with. -/
def datesOf (cd : ConvData) : List String :=
  if cd.messages.isEmpty then []
  else ((split_messages_by_date cd.messages).getD []).map (fun p => p.1 ++ ".json")

/-- The classified metadata record one processed conversation contributes. -/
def recOf (cd : ConvData) : Kind × MetaRecord :=
  (classify_metadata cd.conv, generate_metadata cd.conv (labelOf cd) cd.members)

/-! ## Theorems -/

/-! ### Generic list helpers -/

/-- A `find?` by key on a list whose keys are distinct returns the unique
matching element. -/
theorem find?_key_of_mem_nodup {α κ : Type} [DecidableEq κ] (key : α → κ)
    {l : List α} {x : α} {k : κ} (n : (l.map key).Nodup) (hx : x ∈ l) (hk : key x = k) :
    l.find? (fun a => key a = k) = some x := by
  have hs : (l.find? (fun a => key a = k)).isSome := by
    rw [List.find?_isSome]
    exact ⟨x, hx, by simp [hk]⟩
  obtain ⟨y, hy⟩ := Option.isSome_iff_exists.mp hs
  have hmem := List.mem_of_find?_eq_some hy
  have hpy := List.find?_some hy
  simp only [decide_eq_true_eq] at hpy
  have := List.inj_on_of_nodup_map n hmem hx (hpy.trans hk.symm)
  rw [hy, this]

/-- On a list with distinct keys, searching from the back agrees with
searching from the front. -/
theorem find?_key_reverse_of_nodup {α κ : Type} [DecidableEq κ] (key : α → κ)
    {l : List α} {k : κ} (n : (l.map key).Nodup) :
    l.reverse.find? (fun a => key a = k) = l.find? (fun a => key a = k) := by
  cases h : l.find? (fun a => key a = k) with
  | none =>
      rw [List.find?_eq_none] at h ⊢
      intro x hx
      exact h x (List.mem_reverse.mp hx)
  | some x =>
      have hmem := List.mem_of_find?_eq_some h
      have hpx := List.find?_some h
      simp only [decide_eq_true_eq] at hpx
      have n' : (l.reverse.map key).Nodup := by
        rw [List.map_reverse]
        exact List.nodup_reverse.mpr n
      exact find?_key_of_mem_nodup key n' (List.mem_reverse.mpr hmem) hpx

/-- Two lists that are strictly sorted by a key and agree on every `find?` by
key are equal. -/
theorem eq_of_strictSorted_find {α κ : Type} [LinearOrder κ] [DecidableEq κ] (key : α → κ) :
    ∀ {l₁ l₂ : List α},
      l₁.Pairwise (fun a b => key a < key b) → l₂.Pairwise (fun a b => key a < key b) →
      (∀ k, l₁.find? (fun a => key a = k) = l₂.find? (fun a => key a = k)) → l₁ = l₂
  | [], [], _, _, _ => rfl
  | [], b :: l₂, _, _, h => by
      have hb := h (key b)
      rw [List.find?_cons_of_pos _ (by simp)] at hb
      simp at hb
  | a :: l₁, [], _, _, h => by
      have ha := h (key a)
      rw [List.find?_cons_of_pos _ (by simp)] at ha
      simp at ha
  | a :: l₁, b :: l₂, s₁, s₂, h => by
      by_cases hk : key b = key a
      · have hab : a = b := by
          have ha := h (key a)
          rw [List.find?_cons_of_pos _ (by simp), List.find?_cons_of_pos _ (by simp [hk])] at ha
          exact Option.some.inj ha
        subst hab
        have htail : l₁ = l₂ := by
          refine eq_of_strictSorted_find key s₁.tail s₂.tail (fun k => ?_)
          by_cases hka : k = key a
          · subst hka
            have h₁ : l₁.find? (fun x => key x = key a) = none := by
              rw [List.find?_eq_none]
              intro x hx
              have := (List.pairwise_cons.mp s₁).1 x hx
              simp [this.ne']
            have h₂ : l₂.find? (fun x => key x = key a) = none := by
              rw [List.find?_eq_none]
              intro x hx
              have hlt := (List.pairwise_cons.mp s₂).1 x hx
              rw [hk] at hlt
              simp [hlt.ne']
            rw [h₁, h₂]
          · have hk' := h k
            rw [List.find?_cons_of_neg _ (by simp [Ne.symm hka]),
              List.find?_cons_of_neg _ (by simp [hk, Ne.symm hka])] at hk'
            exact hk'
        rw [htail]
      · exfalso
        have ha := h (key a)
        rw [List.find?_cons_of_pos _ (by simp), List.find?_cons_of_neg _ (by simp [hk])] at ha
        have hmem_a : a ∈ l₂ := List.mem_of_find?_eq_some ha.symm
        have hba : key b < key a := (List.pairwise_cons.mp s₂).1 a hmem_a
        have hb := h (key b)
        rw [List.find?_cons_of_neg _ (by simp only [decide_eq_true_eq]; exact fun hh => hk hh.symm),
          List.find?_cons_of_pos _ (by simp)] at hb
        have hmem_b : b ∈ l₁ := List.mem_of_find?_eq_some hb
        have hab : key a < key b := (List.pairwise_cons.mp s₁).1 b hmem_b
        exact lt_asymm hab hba

/-! ### C9: sanitize -/

/-- Collapsing underscore runs only removes characters. -/
theorem collapseUnderscores_sublist : ∀ l : List Char, List.Sublist (collapseUnderscores l) l
  | [] => by simp [collapseUnderscores]
  | [a] => by simp [collapseUnderscores]
  | a :: b :: rest => by
      rw [collapseUnderscores]
      split
      · exact (collapseUnderscores_sublist (b :: rest)).cons a
      · exact (collapseUnderscores_sublist (b :: rest)).cons₂ a

/-- Stripping surrounding spaces/underscores only removes characters. -/
theorem stripSpaceUnderscore_sublist (l : List Char) :
    List.Sublist (stripSpaceUnderscore l) l := by
  unfold stripSpaceUnderscore
  have h2 : List.Sublist ((l.dropWhile stripSet).reverse.dropWhile stripSet).reverse
      (l.dropWhile stripSet).reverse.reverse :=
    List.reverse_sublist.mpr (List.dropWhile_sublist _)
  rw [List.reverse_reverse] at h2
  exact h2.trans (List.dropWhile_sublist _)

/-- The byte-truncation loop only removes characters. -/
theorem truncateLoop_sublist : ∀ (fuel : Nat) (l : List Char),
    List.Sublist (truncateLoop fuel l) l
  | 0, l => by simp [truncateLoop]
  | fuel + 1, l => by
      rw [truncateLoop]
      split
      · exact (truncateLoop_sublist fuel l.dropLast).trans (List.dropLast_sublist l)
      · exact List.Sublist.refl l

/-- Python `rstrip` of underscores only removes characters. -/
theorem rstripUnderscore_sublist (l : List Char) : List.Sublist (rstripUnderscore l) l := by
  unfold rstripUnderscore
  have h : List.Sublist (l.reverse.dropWhile (fun c => c = '_')).reverse l.reverse.reverse :=
    List.reverse_sublist.mpr (List.dropWhile_sublist _)
  rwa [List.reverse_reverse] at h

/-- UTF-8 length is monotone under taking sublists. -/
theorem utf8Len_le_of_sublist {s t : List Char} (h : List.Sublist s t) :
    utf8Len s ≤ utf8Len t :=
  List.Sublist.sum_le_sum (h.map Char.utf8Size) (fun _ _ => Nat.zero_le _)

/-- With enough fuel the truncation loop reaches the 200-byte bound or runs
out of characters. -/
theorem truncateLoop_le : ∀ (fuel : Nat) (l : List Char), l.length ≤ fuel →
    utf8Len (truncateLoop fuel l) ≤ 200 ∨ truncateLoop fuel l = []
  | 0, l, h => by
      rw [Nat.le_zero] at h
      rw [List.length_eq_zero] at h
      subst h
      right
      rfl
  | fuel + 1, l, h => by
      rw [truncateLoop]
      split
      · rename_i hcond
        refine truncateLoop_le fuel l.dropLast ?_
        have hlen : l.dropLast.length = l.length - 1 := List.length_dropLast l
        have hne : l ≠ [] := hcond.2
        have : 0 < l.length := List.length_pos.mpr hne
        omega
      · rename_i hcond
        rw [not_and_or] at hcond
        rcases hcond with h1 | h2
        · left
          omega
        · right
          simpa using h2

/-- C9 core property: every sanitized name is nonempty, fits in 200 UTF-8
bytes, and contains no forbidden character. -/
theorem sanitize_props (name : List Char) :
    sanitize name ≠ [] ∧ utf8Len (sanitize name) ≤ 200 ∧
      ∀ c ∈ sanitize name, forbiddenChar c = false := by
  have hph₁ : ("unnamed_channel".toList : List Char) ≠ [] := by decide
  have hph₂ : utf8Len "unnamed_channel".toList ≤ 200 := by decide
  have hph₃ : ∀ c ∈ ("unnamed_channel".toList : List Char), forbiddenChar c = false := by
    decide
  have hclean : ∀ c ∈ name.map (fun c => if forbiddenChar c then '_' else c),
      forbiddenChar c = false := by
    intro c hc
    rw [List.mem_map] at hc
    obtain ⟨x, _, hx⟩ := hc
    by_cases hfx : forbiddenChar x
    · rw [← hx, if_pos hfx]
      decide
    · rw [← hx, if_neg hfx]
      exact Bool.not_eq_true _ ▸ (by simpa using hfx)
  rw [sanitize]
  set s1 := name.map (fun c => if forbiddenChar c then '_' else c) with hs1
  set s2 := collapseUnderscores s1 with hs2
  set s3 := stripSpaceUnderscore s2 with hs3
  have hsub3 : List.Sublist s3 s1 :=
    (stripSpaceUnderscore_sublist s2).trans (collapseUnderscores_sublist s1)
  by_cases h3 : s3 = []
  · simp only [h3, if_pos rfl]
    exact ⟨hph₁, hph₂, hph₃⟩
  · simp only [if_neg h3]
    set s4 := if 200 < utf8Len s3 then rstripUnderscore (truncateLoop s3.length s3) else s3
      with hs4
    have hsub4 : List.Sublist s4 s3 := by
      rw [hs4]
      split
      · exact (rstripUnderscore_sublist _).trans (truncateLoop_sublist _ _)
      · exact List.Sublist.refl s3
    have hlen4 : utf8Len s4 ≤ 200 := by
      rw [hs4]
      split
      · rename_i hgt
        rcases truncateLoop_le s3.length s3 (Nat.le_refl _) with hle | hnil
        · exact le_trans (utf8Len_le_of_sublist (rstripUnderscore_sublist _)) hle
        · rw [hnil]
          decide
      · rename_i hle
        omega
    by_cases h4 : s4 = []
    · simp only [h4, if_pos rfl]
      exact ⟨hph₁, hph₂, hph₃⟩
    · simp only [if_neg h4]
      refine ⟨h4, hlen4, ?_⟩
      intro c hc
      exact hclean c ((hsub4.trans hsub3).subset hc)

/-- C9: for every input string, `sanitize` (which replaces each
filesystem-forbidden character with an underscore, collapses underscore runs,
trims surrounding spaces/underscores, truncates to at most 200 UTF-8 bytes by
whole characters, re-trims trailing underscores, and falls back to the
literal `unnamed_channel`) returns a result that is always nonempty, encodes
to at most 200 UTF-8 bytes, and contains no forbidden character. -/
theorem c9_sanitize (name : List Char) :
    sanitize name ≠ [] ∧ utf8Len (sanitize name) ≤ 200 ∧
      ∀ c ∈ sanitize name, forbiddenChar c = false :=
  sanitize_props name

/-! ### C4: self-DM member normalization -/

/-- The `members` field stored by `_generate_metadata` is the (possibly
self-DM-normalized) resolved member list. -/
theorem lookupField_generate_members (conv : Conv) (label : String) (members : List String) :
    lookupField (generate_metadata conv label members) "members" =
      some (JValue.strs (selfDmMembers conv.is_im members)) := by
  unfold generate_metadata lookupField createdField
  rcases conv.created with _ | c
  · simp [List.find?_append, List.find?]
  · split <;> simp [List.find?_append, List.find?]

/-- The `id` field stored by `_generate_metadata` is the conversation id. -/
theorem lookupField_generate_id (conv : Conv) (label : String) (members : List String) :
    lookupField (generate_metadata conv label members) "id" = some (JValue.s conv.id) := by
  unfold generate_metadata lookupField
  simp [List.find?_append, List.find?]

/-- C4: a direct-message conversation whose resolved member list has exactly
one entry is persisted with a two-entry members list repeating that user id;
every other conversation keeps its resolved member list unchanged. -/
theorem c4_self_dm_members (conv : Conv) (label : String) (members : List String) :
    (∀ u, conv.is_im = true → members = [u] →
      lookupField (generate_metadata conv label members) "members" =
        some (JValue.strs [u, u])) ∧
    (¬(conv.is_im = true ∧ members.length = 1) →
      lookupField (generate_metadata conv label members) "members" =
        some (JValue.strs members)) := by
  constructor
  · intro u him hm
    rw [lookupField_generate_members, hm, him]
    simp [selfDmMembers]
  · intro hn
    rw [lookupField_generate_members]
    match members with
    | [] => rfl
    | [u] =>
        have him : conv.is_im = false := by
          by_cases h : conv.is_im
          · exact absurd ⟨h, rfl⟩ hn
          · simpa using h
        simp [selfDmMembers, him]
    | a :: b :: t => rfl

/-- C4 witness: the self-DM conversation `D1` with single member `U1` is
stored with `members = [U1, U1]`. -/
theorem c4_self_dm_members_witness :
    lookupField
      (generate_metadata
        ⟨"D1", none, true, false, false, none, none, none, none, none, none⟩ "D1" ["U1"])
      "members" = some (JValue.strs ["U1", "U1"]) :=
  (c4_self_dm_members
    ⟨"D1", none, true, false, false, none, none, none, none, none, none⟩ "D1" ["U1"]).1
    "U1" rfl rfl

/-! ### C10: merge_metadata totality -/

/-- C10: `merge_metadata` succeeds exactly when every input record carries an
`id` key (a record without one raises `KeyError`), and this branch is
unreachable in the backup run because `_generate_metadata` puts an `id` into
every record it produces. -/
theorem c10_merge_total (existing_meta new_meta : List MetaRecord) :
    ((merge_metadata existing_meta new_meta).isSome ↔
      ∀ r ∈ existing_meta ++ new_meta, hasId r = true) ∧
    (∀ (conv : Conv) (label : String) (members : List String),
      hasId (generate_metadata conv label members) = true) := by
  constructor
  · unfold merge_metadata
    by_cases h : (existing_meta ++ new_meta).all hasId
    · rw [if_pos h]
      simpa using List.all_eq_true.mp h
    · rw [if_neg h]
      simp only [Option.isSome_none, Bool.false_eq_true, false_iff]
      intro hall
      exact h (List.all_eq_true.mpr hall)
  · intro conv label members
    unfold hasId
    rw [lookupField_generate_id]
    rfl

/-! ### C7: unparseable timestamps -/

/-- C7 (code bug): `timestamp_to_date` maps the unparseable timestamp "abc"
to `unknown-date` as the spec says, but `split_messages_by_date` then raises
an uncaught `ValueError` re-parsing the same `ts` in the per-group sort key,
so partitioning does not complete; a present-but-empty `ts` is silently
dropped rather than keyed `unknown-date`. -/
theorem c7_unknown_date_fatal :
    timestamp_to_date "abc" = "unknown-date" ∧
    split_messages_by_date [{ ts := some "abc" }] = none ∧
    split_messages_by_date [{ ts := some "" }] = some [] := by
  refine ⟨by decide, by decide, by decide⟩

/-! ### C8: rate-limit retry -/

/-- C8 counterexample: a 429 response whose `Retry-After` header is present
but malformed does not fall back to the 5-second default and retry (which
would give `ok 7` after a 5-second sleep); it raises an uncaught
`ValueError`. -/
theorem c8_counterexample :
    backoff_retry [ApiOutcome.apiError (some ⟨429, some "oops"⟩), ApiOutcome.ok 7] [] =
      RetryResult.valueError [] ∧
    RetryResult.valueError [] ≠ RetryResult.ok 7 [5] := by
  refine ⟨by decide, by decide⟩

/-- One 429 iteration of the retry loop: sleep the parsed (or defaulted)
duration and retry the identical call. -/
theorem backoff_retry_429 (r : SlackResponse) (rest : List ApiOutcome) (sleeps : List Int)
    (h : r.status_code = 429) (w : Int) (hw : pyInt (r.retry_after.getD "5") = some w) :
    backoff_retry (ApiOutcome.apiError (some r) :: rest) sleeps =
      backoff_retry rest (sleeps ++ [w]) := by
  simp only [backoff_retry, if_pos h, hw]

/-- C8 (amended): on a 429 the loop sleeps for the parsed `Retry-After`
seconds — 5 only when the header is absent — and retries the identical call
unboundedly; a non-429 error (or an error without a response) propagates
immediately and is never retried. A present but malformed header instead
raises an uncaught `ValueError` (see the counterexample). -/
theorem c8_retry_spec (errs : List SlackResponse) (rest : List ApiOutcome) (sleeps : List Int)
    (h429 : ∀ r ∈ errs, r.status_code = 429)
    (hhdr : ∀ r ∈ errs, ∀ s, r.retry_after = some s → (pyInt s).isSome = true) :
    backoff_retry (errs.map (fun r => ApiOutcome.apiError (some r)) ++ rest) sleeps =
      backoff_retry rest (sleeps ++ errs.map waitOf) ∧
    (∀ v rest2, backoff_retry (ApiOutcome.ok v :: rest2) sleeps = RetryResult.ok v sleeps) ∧
    (∀ r rest2, r.status_code ≠ 429 →
      backoff_retry (ApiOutcome.apiError (some r) :: rest2) sleeps =
        RetryResult.apiError (some r) sleeps) ∧
    (∀ rest2, backoff_retry (ApiOutcome.apiError none :: rest2) sleeps =
      RetryResult.apiError none sleeps) := by
  refine ⟨?_, fun v rest2 => rfl, fun r rest2 hr => by simp only [backoff_retry, if_neg hr],
    fun rest2 => rfl⟩
  induction errs generalizing sleeps with
  | nil => simp
  | cons r t ih =>
      have h4 : r.status_code = 429 := h429 r (List.mem_cons_self r t)
      have hw : pyInt (r.retry_after.getD "5") = some (waitOf r) := by
        unfold waitOf
        rcases hra : r.retry_after with _ | s
        · decide
        · have := hhdr r (List.mem_cons_self r t) s hra
          obtain ⟨w, hw⟩ := Option.isSome_iff_exists.mp this
          simp [hw]
      rw [List.map_cons, List.cons_append,
        backoff_retry_429 r _ sleeps h4 (waitOf r) hw,
        ih (sleeps ++ [waitOf r]) (fun x hx => h429 x (List.mem_cons_of_mem r hx))
          (fun x hx => hhdr x (List.mem_cons_of_mem r hx))]
      simp [List.append_assoc]

/-- C8 witness: the spec's rate-limit scenario — a 429 with `Retry-After: 2`,
then a 429 with no header, then success — sleeps 2 then 5 seconds and returns
the retried call's value. -/
theorem c8_retry_witness :
    backoff_retry [ApiOutcome.apiError (some ⟨429, some "2"⟩),
      ApiOutcome.apiError (some ⟨429, none⟩), ApiOutcome.ok 3] [] =
      RetryResult.ok 3 [2, 5] := by
  have h := (c8_retry_spec [⟨429, some "2"⟩, ⟨429, none⟩] [ApiOutcome.ok 3] []
    (by decide) (by decide)).1
  simp only [List.map_cons, List.map_nil, List.cons_append, List.nil_append] at h
  rw [h]
  decide

/-! ### Python dict lemmas -/

section DictLemmas

variable {κ β : Type} [DecidableEq κ]

/-- Replacing the value at an existing key makes that key map to the new
value. -/
theorem map_replace_find_self (v : β) :
    ∀ (acc : List (κ × β)) (k : κ), acc.any (fun p => p.1 = k) = true →
      (acc.map (fun p => if p.1 = k then (p.1, v) else p)).find? (fun p => p.1 = k) =
        some (k, v)
  | [], k, hany => by simp at hany
  | p :: t, k, hany => by
      rw [List.map_cons]
      by_cases hp : p.1 = k
      · rw [if_pos hp, List.find?_cons_of_pos _ (by simpa using hp), hp]
      · rw [if_neg hp, List.find?_cons_of_neg _ (by simpa using hp)]
        refine map_replace_find_self v t k ?_
        simpa [hp] using hany

/-- `pyDictInsert` makes the inserted key map to the inserted value. -/
theorem pyDictInsert_find_self (acc : List (κ × β)) (k : κ) (v : β) :
    (pyDictInsert acc k v).find? (fun p => p.1 = k) = some (k, v) := by
  unfold pyDictInsert
  split
  · exact map_replace_find_self v acc k (by assumption)
  · rename_i hany
    rw [List.find?_append]
    have hnone : acc.find? (fun p => p.1 = k) = none := by
      rw [List.find?_eq_none]
      intro x hx
      have := List.any_eq_false.mp (Bool.not_eq_true _ ▸ hany) x hx
      simpa using this
    rw [hnone, Option.none_or, List.find?_cons_of_pos _ (by simp)]

/-- `pyDictInsert` leaves every other key's binding unchanged. -/
theorem pyDictInsert_find_ne (acc : List (κ × β)) (k : κ) (v : β) (k' : κ) (hk : k' ≠ k) :
    (pyDictInsert acc k v).find? (fun p => p.1 = k') = acc.find? (fun p => p.1 = k') := by
  unfold pyDictInsert
  split
  · rename_i hany
    clear hany
    induction acc with
    | nil => rfl
    | cons p t ih =>
        rw [List.map_cons]
        by_cases hp : p.1 = k
        · rw [if_pos hp]
          have hne : ¬p.1 = k' := fun hh => hk (hh ▸ hp ▸ rfl)
          rw [List.find?_cons_of_neg _ (by simpa using hne),
            List.find?_cons_of_neg _ (by simpa using hne)]
          exact ih
        · rw [if_neg hp]
          by_cases hp' : p.1 = k'
          · rw [List.find?_cons_of_pos _ (by simpa using hp'),
              List.find?_cons_of_pos _ (by simpa using hp')]
          · rw [List.find?_cons_of_neg _ (by simpa using hp'),
              List.find?_cons_of_neg _ (by simpa using hp')]
            exact ih
  · rw [List.find?_append]
    have h1 : ([(k, v)] : List (κ × β)).find? (fun p => p.1 = k') = none := by
      rw [List.find?_eq_none]
      intro x hx
      rw [List.mem_singleton] at hx
      subst hx
      simpa using fun hh => hk hh.symm
    rw [h1]
    exact Option.or_none

/-- The keys after a `pyDictInsert`. -/
theorem pyDictInsert_keys (acc : List (κ × β)) (k : κ) (v : β) :
    (pyDictInsert acc k v).map Prod.fst =
      if acc.any (fun p => p.1 = k) then acc.map Prod.fst else acc.map Prod.fst ++ [k] := by
  unfold pyDictInsert
  split
  · rw [List.map_map]
    refine List.map_congr_left (fun p _ => ?_)
    by_cases hp : p.1 = k
    · simp [hp]
    · simp [hp]
  · rw [List.map_append]
    rfl

/-- `pyDictInsert` preserves distinctness of keys. -/
theorem pyDictInsert_nodup_keys (acc : List (κ × β)) (k : κ) (v : β)
    (h : (acc.map Prod.fst).Nodup) : ((pyDictInsert acc k v).map Prod.fst).Nodup := by
  rw [pyDictInsert_keys]
  split
  · exact h
  · rename_i hany
    have hnot : k ∉ acc.map Prod.fst := by
      rw [List.mem_map]
      rintro ⟨p, hp, hpk⟩
      have := List.any_eq_false.mp (Bool.not_eq_true _ ▸ hany) p hp
      simp [hpk] at this
    rw [List.nodup_append]
    refine ⟨h, List.nodup_singleton k, fun a ha hk => ?_⟩
    rw [List.mem_singleton] at hk
    subst hk
    exact hnot ha

/-- Provenance of entries after a `pyDictInsert`. -/
theorem mem_pyDictInsert (acc : List (κ × β)) (k : κ) (v : β) (x : κ × β)
    (hx : x ∈ pyDictInsert acc k v) : x ∈ acc ∨ x = (k, v) := by
  unfold pyDictInsert at hx
  split at hx
  · rw [List.mem_map] at hx
    obtain ⟨p, hp, hpx⟩ := hx
    by_cases hpk : p.1 = k
    · right
      rw [if_pos hpk] at hpx
      rw [← hpx, hpk]
    · left
      rw [if_neg hpk] at hpx
      rw [← hpx]
      exact hp
  · rw [List.mem_append, List.mem_singleton] at hx
    exact hx

end DictLemmas

section FoldLemmas

variable {κ β : Type} [DecidableEq κ] (keyf : β → κ)

/-- Lookup in a dict built by keyed insertions: the last inserted value for a
key wins, and otherwise the initial dict answers. -/
theorem dictFold_find : ∀ (l : List β) (acc : List (κ × β)) (k : κ),
    (((l.foldl (fun a r => pyDictInsert a (keyf r) r) acc)).find?
        (fun p => p.1 = k)).map Prod.snd =
      (l.reverse.find? (fun r => keyf r = k)).or
        ((acc.find? (fun p => p.1 = k)).map Prod.snd)
  | [], acc, k => by simp
  | r :: t, acc, k => by
      rw [List.foldl_cons, dictFold_find t (pyDictInsert acc (keyf r) r) k,
        List.reverse_cons, List.find?_append]
      by_cases hk : keyf r = k
      · subst hk
        have h1 : ([r].find? fun x => keyf x = keyf r) = some r := by
          rw [List.find?_cons_of_pos _ (by simp)]
        rw [h1, pyDictInsert_find_self]
        cases t.reverse.find? fun x => keyf x = keyf r with
        | none => simp
        | some y => simp
      · have h1 : ([r].find? fun x => keyf x = k) = none := by
          rw [List.find?_eq_none]
          intro x hx
          rw [List.mem_singleton] at hx
          subst hx
          simpa using hk
        rw [h1, Option.or_none, pyDictInsert_find_ne _ _ _ _ (fun hh => hk hh.symm)]

/-- Keys stay distinct through a keyed insertion fold. -/
theorem dictFold_nodup_keys : ∀ (l : List β) (acc : List (κ × β)),
    (acc.map Prod.fst).Nodup →
    (((l.foldl (fun a r => pyDictInsert a (keyf r) r) acc)).map Prod.fst).Nodup
  | [], acc, h => h
  | r :: t, acc, h => by
      rw [List.foldl_cons]
      exact dictFold_nodup_keys t _ (pyDictInsert_nodup_keys _ _ _ h)

/-- Every entry of a keyed insertion fold keys its own value. -/
theorem dictFold_entry_inv : ∀ (l : List β) (acc : List (κ × β)),
    (∀ p ∈ acc, p.1 = keyf p.2) →
    ∀ p ∈ l.foldl (fun a r => pyDictInsert a (keyf r) r) acc, p.1 = keyf p.2
  | [], acc, h => h
  | r :: t, acc, h => by
      rw [List.foldl_cons]
      refine dictFold_entry_inv t _ (fun p hp => ?_)
      rcases mem_pyDictInsert _ _ _ _ hp with hmem | heq
      · exact h p hmem
      · rw [heq]

/-- Every value of a keyed insertion fold comes from the inserted list or the
initial dict. -/
theorem dictFold_value_mem : ∀ (l : List β) (acc : List (κ × β)),
    ∀ p ∈ l.foldl (fun a r => pyDictInsert a (keyf r) r) acc, p.2 ∈ l ∨ p ∈ acc
  | [], _, p, hp => Or.inr hp
  | r :: t, acc, p, hp => by
      rw [List.foldl_cons] at hp
      rcases dictFold_value_mem t (pyDictInsert acc (keyf r) r) p hp with hl | hacc
      · exact Or.inl (List.mem_cons_of_mem r hl)
      · rcases mem_pyDictInsert _ _ _ _ hacc with hmem | heq
        · exact Or.inr hmem
        · refine Or.inl ?_
          rw [heq]
          exact List.mem_cons_self r t

/-- Searching the values of a self-keyed dict by key matches searching the
dict itself. -/
theorem values_find (dict : List (κ × β)) (hinv : ∀ p ∈ dict, p.1 = keyf p.2) (k : κ) :
    (dict.map Prod.snd).find? (fun v => keyf v = k) =
      (dict.find? (fun p => p.1 = k)).map Prod.snd := by
  induction dict with
  | nil => rfl
  | cons p t ih =>
      have hp := hinv p (List.mem_cons_self p t)
      rw [List.map_cons]
      by_cases hk : p.1 = k
      · rw [List.find?_cons_of_pos _ (by simpa using hp ▸ hk),
          List.find?_cons_of_pos _ (by simpa using hk)]
        rfl
      · rw [List.find?_cons_of_neg _ (by simpa using hp ▸ hk),
          List.find?_cons_of_neg _ (by simpa using hk)]
        exact ih (fun q hq => hinv q (List.mem_cons_of_mem p hq))

omit [DecidableEq κ] in
/-- The keys of a self-keyed dict are the keys of its values. -/
theorem values_keys (dict : List (κ × β)) (hinv : ∀ p ∈ dict, p.1 = keyf p.2) :
    (dict.map Prod.snd).map keyf = dict.map Prod.fst := by
  rw [List.map_map]
  exact (List.map_congr_left (fun p hp => (hinv p hp).symm))

/-- `find?` by key is invariant under permutation when keys are distinct. -/
theorem find?_key_eq_of_perm {α κ : Type} [DecidableEq κ] (key : α → κ) {l₁ l₂ : List α}
    (hperm : List.Perm l₁ l₂) (n : (l₁.map key).Nodup) (k : κ) :
    l₁.find? (fun v => key v = k) = l₂.find? (fun v => key v = k) := by
  cases h : l₁.find? (fun v => key v = k) with
  | none =>
      rw [List.find?_eq_none] at h
      symm
      rw [List.find?_eq_none]
      intro x hx
      exact h x (hperm.mem_iff.mpr hx)
  | some x =>
      have hmem := List.mem_of_find?_eq_some h
      have hpx := List.find?_some h
      simp only [decide_eq_true_eq] at hpx
      have n₂ : (l₂.map key).Nodup := ((hperm.map key).nodup_iff).mp n
      exact (find?_key_of_mem_nodup key n₂ (hperm.mem_iff.mp hmem) hpx).symm

/-- `find?` only depends on the pointwise behaviour of its predicate. -/
theorem findCongr {α : Type} {p q : α → Bool} :
    ∀ {l : List α}, (∀ x ∈ l, p x = q x) → l.find? p = l.find? q
  | [], _ => rfl
  | a :: t, h => by
      rw [List.find?_cons, List.find?_cons, h a (List.mem_cons_self a t)]
      cases q a with
      | true => rfl
      | false => exact findCongr (fun x hx => h x (List.mem_cons_of_mem a hx))

end FoldLemmas

/-! ### C5/C6: metadata merge -/

/-- `String.toList` is injective (a string is its list of code points). -/
theorem stringToList_injective : Function.Injective String.toList := by
  intro a b h
  cases a
  cases b
  simp only [String.toList] at h
  rw [h]

/-- When a record has a string id, its dict key is that string. -/
theorem idVal_eq_of_strId {r : MetaRecord} {v : String}
    (hv : lookupField r "id" = some (JValue.s v)) : idVal r = JValue.s (idKey r) := by
  unfold idVal idKey
  rw [hv]
  rfl

/-- Master description of one `merge_metadata` call on records with string
ids: it succeeds, every output record comes from the inputs, output ids are
distinct and strictly sorted, and each id maps to the last input record
carrying it — so newly merged records win on id collision and the result is
the id-indexed union. -/
theorem merge_metadata_spec (E N : List MetaRecord)
    (h : ∀ r ∈ E ++ N, ∃ v, lookupField r "id" = some (JValue.s v)) :
    ∃ M, merge_metadata E N = some M ∧
      (∀ r ∈ M, r ∈ E ++ N) ∧
      (M.map idKey).Nodup ∧
      M.Pairwise (fun a b => idChars a < idChars b) ∧
      (∀ k, M.find? (fun r => idKey r = k) =
        (E ++ N).reverse.find? (fun r => idKey r = k)) := by
  have hall : (E ++ N).all hasId = true := by
    rw [List.all_eq_true]
    intro r hr
    obtain ⟨v, hv⟩ := h r hr
    unfold hasId
    rw [hv]
    rfl
  set dict := (E ++ N).foldl (fun acc r => pyDictInsert acc (idVal r) r) [] with hdict
  set V := dict.map Prod.snd with hV
  have hmerge : merge_metadata E N = some (V.insertionSort idLe) := by
    unfold merge_metadata
    rw [if_pos hall]
  have hinv : ∀ p ∈ dict, p.1 = idVal p.2 :=
    dictFold_entry_inv idVal (E ++ N) [] (by simp)
  have hkeysN : (dict.map Prod.fst).Nodup :=
    dictFold_nodup_keys idVal (E ++ N) [] (by simp)
  have hVmem : ∀ r ∈ V, r ∈ E ++ N := by
    intro r hr
    rw [hV, List.mem_map] at hr
    obtain ⟨p, hp, hps⟩ := hr
    rcases dictFold_value_mem idVal (E ++ N) [] p hp with hl | habs
    · rw [← hps]
      exact hl
    · simp at habs
  have hstr : ∀ r ∈ V, idVal r = JValue.s (idKey r) := by
    intro r hr
    obtain ⟨v, hv⟩ := h r (hVmem r hr)
    exact idVal_eq_of_strId hv
  have hVids : (V.map idKey).Nodup := by
    have h1 : V.map idVal = dict.map Prod.fst := values_keys idVal dict hinv
    have h2 : V.map idVal = (V.map idKey).map JValue.s := by
      conv_rhs => rw [List.map_map]
      exact List.map_congr_left (fun r hr => hstr r hr)
    have h3 : ((V.map idKey).map JValue.s).Nodup := by
      rw [← h2, h1]
      exact hkeysN
    exact List.Nodup.of_map _ h3
  set M := V.insertionSort idLe with hM
  have hperm : List.Perm M V := List.perm_insertionSort idLe V
  have hMids : (M.map idKey).Nodup := ((hperm.map idKey).nodup_iff).mpr hVids
  have hsorted : M.Pairwise idLe := List.sorted_insertionSort idLe V
  have hMchars : (M.map idChars).Nodup := by
    have hmm : M.map idChars = (M.map idKey).map String.toList := by
      rw [List.map_map]
      rfl
    rw [hmm]
    exact hMids.map stringToList_injective
  have hstrict : M.Pairwise (fun a b => idChars a < idChars b) := by
    have hne : M.Pairwise (fun a b => idChars a ≠ idChars b) := List.pairwise_map.mp hMchars
    exact (hsorted.and hne).imp (fun hh => lt_of_le_of_ne hh.1 hh.2)
  refine ⟨M, hmerge, fun r hr => hVmem r (hperm.mem_iff.mp hr), hMids, hstrict, fun k => ?_⟩
  have c1 : M.find? (fun r => idKey r = k) = V.find? (fun r => idKey r = k) :=
    find?_key_eq_of_perm idKey hperm hMids k
  have c2 : V.find? (fun r => idKey r = k) = V.find? (fun r => idVal r = JValue.s k) := by
    refine findCongr (fun r hr => ?_)
    rw [hstr r hr]
    by_cases hkk : idKey r = k
    · simp [hkk]
    · simp [hkk]
  have c3 : V.find? (fun r => idVal r = JValue.s k) =
      (dict.find? (fun p => p.1 = JValue.s k)).map Prod.snd :=
    values_find idVal dict hinv (JValue.s k)
  have c4 : (dict.find? (fun p => p.1 = JValue.s k)).map Prod.snd =
      (E ++ N).reverse.find? (fun r => idVal r = JValue.s k) := by
    have hf := dictFold_find idVal (E ++ N) [] (JValue.s k)
    rw [← hdict] at hf
    simpa using hf
  have c5 : (E ++ N).reverse.find? (fun r => idVal r = JValue.s k) =
      (E ++ N).reverse.find? (fun r => idKey r = k) := by
    refine findCongr (fun r hr => ?_)
    have hr' : r ∈ E ++ N := List.mem_reverse.mp hr
    obtain ⟨v, hv⟩ := h r hr'
    rw [idVal_eq_of_strId hv]
    by_cases hkk : idKey r = k
    · simp [hkk]
    · simp [hkk]
  rw [c1, c2, c3, c4, c5]

/-- `Option.or` with a `some` on the left keeps the left value. -/
theorem some_or_eq {α : Type} (a : α) (o : Option α) : (some a).or o = some a := rfl

/-- Search by code-point id key versus search by string id. -/
theorem find?_idChars_eq (M : List MetaRecord) (kc : List Char) :
    M.find? (fun r => idChars r = kc) = M.find? (fun r => idKey r = String.mk kc) := by
  refine findCongr (fun r hr => ?_)
  by_cases h : idKey r = String.mk kc
  · have h1 : idChars r = kc := by
      rw [idChars, h]
      rfl
    simp [h1, h]
  · have h2 : idChars r ≠ kc := by
      intro hc
      exact h (stringToList_injective hc)
    simp [h2, h]

/-- Absorption: re-merging records whose id already maps to the same record
leaves a merged (strictly sorted, id-distinct) store unchanged. -/
theorem merge_metadata_absorb (M N' : List MetaRecord)
    (hM : ∀ r ∈ M, ∃ v, lookupField r "id" = some (JValue.s v))
    (hN : ∀ r ∈ N', ∃ v, lookupField r "id" = some (JValue.s v))
    (hMids : (M.map idKey).Nodup)
    (hstrict : M.Pairwise (fun a b => idChars a < idChars b))
    (habs : ∀ r ∈ N', M.find? (fun x => idKey x = idKey r) =
      N'.reverse.find? (fun x => idKey x = idKey r)) :
    merge_metadata M N' = some M := by
  obtain ⟨M₂, hm2, _, _, hstrict2, hchar2⟩ := merge_metadata_spec M N' (by
    intro r hr
    rcases List.mem_append.mp hr with hh | hh
    exacts [hM r hh, hN r hh])
  have heq : M₂ = M := by
    refine eq_of_strictSorted_find idChars hstrict2 hstrict (fun kc => ?_)
    rw [find?_idChars_eq M₂ kc, find?_idChars_eq M kc, hchar2 (String.mk kc),
      List.reverse_append, List.find?_append]
    have hMrev : M.reverse.find? (fun r => idKey r = String.mk kc) =
        M.find? (fun r => idKey r = String.mk kc) :=
      find?_key_reverse_of_nodup idKey hMids
    cases hN' : N'.reverse.find? (fun r => idKey r = String.mk kc) with
    | none => rw [Option.none_or, hMrev]
    | some r =>
        rw [some_or_eq]
        have hrmem : r ∈ N' := List.mem_reverse.mp (List.mem_of_find?_eq_some hN')
        have hrk : idKey r = String.mk kc := by simpa using List.find?_some hN'
        rw [← hrk] at hN'
        rw [← hMrev, find?_key_reverse_of_nodup idKey hMids, ← hrk]
        exact ((habs r hrmem).trans hN').symm
  rw [hm2, heq]

/-- C5: merging a new metadata set is idempotent — re-merging the same new
set into the merged result changes nothing — and the merged result is the
union of records indexed by id, with new records winning on id collision,
sorted ascending by id. -/
theorem c5_merge_idempotent (existing_meta new_meta : List MetaRecord)
    (h : ∀ r ∈ existing_meta ++ new_meta, ∃ v, lookupField r "id" = some (JValue.s v)) :
    ∃ M, merge_metadata existing_meta new_meta = some M ∧
      merge_metadata M new_meta = some M ∧
      M.Pairwise idLe ∧
      (∀ k, M.find? (fun r => idKey r = k) =
        (new_meta.reverse.find? (fun r => idKey r = k)).or
          (existing_meta.reverse.find? (fun r => idKey r = k))) := by
  obtain ⟨M, hm, hmem, hids, hstrict, hchar⟩ :=
    merge_metadata_spec existing_meta new_meta h
  have hchar' : ∀ k, M.find? (fun r => idKey r = k) =
      (new_meta.reverse.find? (fun r => idKey r = k)).or
        (existing_meta.reverse.find? (fun r => idKey r = k)) := by
    intro k
    rw [hchar k, List.reverse_append, List.find?_append]
  have hMstr : ∀ r ∈ M, ∃ v, lookupField r "id" = some (JValue.s v) :=
    fun r hr => h r (hmem r hr)
  have hNstr : ∀ r ∈ new_meta, ∃ v, lookupField r "id" = some (JValue.s v) :=
    fun r hr => h r (List.mem_append.mpr (Or.inr hr))
  refine ⟨M, hm, ?_, ?_, hchar'⟩
  · refine merge_metadata_absorb M new_meta hMstr hNstr hids hstrict (fun r hr => ?_)
    rw [hchar' (idKey r)]
    have hsome : (new_meta.reverse.find? (fun x => idKey x = idKey r)).isSome := by
      rw [List.find?_isSome]
      exact ⟨r, List.mem_reverse.mpr hr, by simp⟩
    obtain ⟨y, hy⟩ := Option.isSome_iff_exists.mp hsome
    rw [hy]
    rfl
  · exact hstrict.imp (fun hh => le_of_lt hh)

/-- C5 witness: a concrete merge with an id collision (the new record for id
`2` wins), re-merged without change. -/
theorem c5_merge_idempotent_witness :
    ∃ M, merge_metadata [[("id", JValue.s "2"), ("x", JValue.s "old")]]
        [[("id", JValue.s "1")], [("id", JValue.s "2"), ("x", JValue.s "new")]] = some M ∧
      merge_metadata M
        [[("id", JValue.s "1")], [("id", JValue.s "2"), ("x", JValue.s "new")]] = some M ∧
      M.Pairwise idLe ∧
      (∀ k, M.find? (fun r => idKey r = k) =
        (([[("id", JValue.s "1")], [("id", JValue.s "2"),
            ("x", JValue.s "new")]] : List MetaRecord).reverse.find?
              (fun r => idKey r = k)).or
          (([[("id", JValue.s "2"), ("x", JValue.s "old")]] : List MetaRecord).reverse.find?
            (fun r => idKey r = k))) :=
  c5_merge_idempotent [[("id", JValue.s "2"), ("x", JValue.s "old")]]
    [[("id", JValue.s "1")], [("id", JValue.s "2"), ("x", JValue.s "new")]] (by
      intro r hr
      fin_cases hr
      · exact ⟨"2", rfl⟩
      · exact ⟨"1", rfl⟩
      · exact ⟨"2", rfl⟩)

/-- C6 counterexample: when the two new sets carry different records under the
same id, the merge order matters — merging A then B keeps B's record while
merging B then A keeps A's. -/
theorem c6_counterexample :
    (merge_metadata [] [[("id", JValue.s "1"), ("name", JValue.s "a")]]).bind
        (fun m => merge_metadata m [[("id", JValue.s "1"), ("name", JValue.s "b")]]) ≠
      (merge_metadata [] [[("id", JValue.s "1"), ("name", JValue.s "b")]]).bind
        (fun m => merge_metadata m [[("id", JValue.s "1"), ("name", JValue.s "a")]]) := by
  decide

/-- C6 (amended): merging new set A then B into an existing store yields the
same result as merging B then A, provided that on every id occurring in both
A and B the winning (last) records of A and of B agree. -/
theorem c6_merge_comm (E A B : List MetaRecord)
    (hE : ∀ r ∈ E, ∃ v, lookupField r "id" = some (JValue.s v))
    (hA : ∀ r ∈ A, ∃ v, lookupField r "id" = some (JValue.s v))
    (hB : ∀ r ∈ B, ∃ v, lookupField r "id" = some (JValue.s v))
    (hagree : ∀ k a b, A.reverse.find? (fun r => idKey r = k) = some a →
      B.reverse.find? (fun r => idKey r = k) = some b → a = b) :
    ∃ MA MAB MB MBA, merge_metadata E A = some MA ∧ merge_metadata MA B = some MAB ∧
      merge_metadata E B = some MB ∧ merge_metadata MB A = some MBA ∧ MAB = MBA := by
  have hEA : ∀ r ∈ E ++ A, ∃ v, lookupField r "id" = some (JValue.s v) := by
    intro r hr
    rcases List.mem_append.mp hr with hh | hh
    exacts [hE r hh, hA r hh]
  have hEB : ∀ r ∈ E ++ B, ∃ v, lookupField r "id" = some (JValue.s v) := by
    intro r hr
    rcases List.mem_append.mp hr with hh | hh
    exacts [hE r hh, hB r hh]
  obtain ⟨MA, hmA, hmemA, hidsA, _, hcharA⟩ := merge_metadata_spec E A hEA
  obtain ⟨MB, hmB, hmemB, hidsB, _, hcharB⟩ := merge_metadata_spec E B hEB
  obtain ⟨MAB, hmAB, _, _, hstrictAB, hcharAB⟩ := merge_metadata_spec MA B (by
    intro r hr
    rcases List.mem_append.mp hr with hh | hh
    exacts [hEA r (hmemA r hh), hB r hh])
  obtain ⟨MBA, hmBA, _, _, hstrictBA, hcharBA⟩ := merge_metadata_spec MB A (by
    intro r hr
    rcases List.mem_append.mp hr with hh | hh
    exacts [hEB r (hmemB r hh), hA r hh])
  refine ⟨MA, MAB, MB, MBA, hmA, hmAB, hmB, hmBA, ?_⟩
  refine eq_of_strictSorted_find idChars hstrictAB hstrictBA (fun kc => ?_)
  rw [find?_idChars_eq MAB kc, find?_idChars_eq MBA kc]
  set k := String.mk kc
  have e1 : MAB.find? (fun r => idKey r = k) =
      (B.reverse.find? (fun r => idKey r = k)).or
        ((A.reverse.find? (fun r => idKey r = k)).or
          (E.reverse.find? (fun r => idKey r = k))) := by
    rw [hcharAB k, List.reverse_append, List.find?_append,
      find?_key_reverse_of_nodup idKey hidsA, hcharA k, List.reverse_append,
      List.find?_append]
  have e2 : MBA.find? (fun r => idKey r = k) =
      (A.reverse.find? (fun r => idKey r = k)).or
        ((B.reverse.find? (fun r => idKey r = k)).or
          (E.reverse.find? (fun r => idKey r = k))) := by
    rw [hcharBA k, List.reverse_append, List.find?_append,
      find?_key_reverse_of_nodup idKey hidsB, hcharB k, List.reverse_append,
      List.find?_append]
  rw [e1, e2]
  cases hfa : A.reverse.find? (fun r => idKey r = k) with
  | none => simp
  | some a =>
      cases hfb : B.reverse.find? (fun r => idKey r = k) with
      | none => simp [some_or_eq]
      | some b => rw [hagree k a b hfa hfb]

/-- C6 witness: merging two disjoint-id new sets in either order produces the
same store. -/
theorem c6_merge_comm_witness :
    ∃ MA MAB MB MBA,
      merge_metadata [[("id", JValue.s "0")]] [[("id", JValue.s "1")]] = some MA ∧
      merge_metadata MA [[("id", JValue.s "2")]] = some MAB ∧
      merge_metadata [[("id", JValue.s "0")]] [[("id", JValue.s "2")]] = some MB ∧
      merge_metadata MB [[("id", JValue.s "1")]] = some MBA ∧ MAB = MBA :=
  c6_merge_comm [[("id", JValue.s "0")]] [[("id", JValue.s "1")]] [[("id", JValue.s "2")]]
    (by
      intro r hr
      fin_cases hr
      exact ⟨"0", rfl⟩)
    (by
      intro r hr
      fin_cases hr
      exact ⟨"1", rfl⟩)
    (by
      intro r hr
      fin_cases hr
      exact ⟨"2", rfl⟩)
    (by
      intro k a b ha hb
      have hma := List.mem_of_find?_eq_some ha
      rw [List.mem_reverse, List.mem_singleton] at hma
      subst hma
      have hmb := List.mem_of_find?_eq_some hb
      rw [List.mem_reverse, List.mem_singleton] at hmb
      subst hmb
      have hpa := List.find?_some ha
      simp only [decide_eq_true_eq] at hpa
      have hpb := List.find?_some hb
      simp only [decide_eq_true_eq] at hpb
      rw [← hpa] at hpb
      exact absurd hpb (by decide))

/-! ### C1: date partitioning -/

/-- Appending to an existing group rewrites exactly that group's entry. -/
theorem replaceGroup_find_self (k : String) (m : Message) :
    ∀ acc : List (String × List Message),
      (acc.map (fun p => if p.1 = k then (p.1, p.2 ++ [m]) else p)).find?
          (fun p => p.1 = k) =
        (acc.find? (fun p => p.1 = k)).map (fun p => (p.1, p.2 ++ [m]))
  | [] => rfl
  | p :: t => by
      by_cases hp : p.1 = k
      · rw [List.map_cons, if_pos hp, List.find?_cons_of_pos _ (by simpa using hp),
          List.find?_cons_of_pos _ (by simpa using hp)]
        rfl
      · rw [List.map_cons, if_neg hp, List.find?_cons_of_neg _ (by simpa using hp),
          List.find?_cons_of_neg _ (by simpa using hp)]
        exact replaceGroup_find_self k m t

/-- Appending to a group leaves other keys' entries unchanged. -/
theorem replaceGroup_find_ne (k : String) (m : Message) (k' : String) (hk : k' ≠ k) :
    ∀ acc : List (String × List Message),
      (acc.map (fun p => if p.1 = k then (p.1, p.2 ++ [m]) else p)).find?
          (fun p => p.1 = k') =
        acc.find? (fun p => p.1 = k')
  | [] => rfl
  | p :: t => by
      by_cases hp : p.1 = k
      · have hne : ¬p.1 = k' := fun hh => hk (hh ▸ hp)
        rw [List.map_cons, if_pos hp, List.find?_cons_of_neg _ (by simpa using hne),
          List.find?_cons_of_neg _ (by simpa using hne)]
        exact replaceGroup_find_ne k m k' hk t
      · by_cases hp' : p.1 = k'
        · rw [List.map_cons, if_neg hp, List.find?_cons_of_pos _ (by simpa using hp'),
            List.find?_cons_of_pos _ (by simpa using hp')]
        · rw [List.map_cons, if_neg hp, List.find?_cons_of_neg _ (by simpa using hp'),
            List.find?_cons_of_neg _ (by simpa using hp')]
          exact replaceGroup_find_ne k m k' hk t

/-- `insertGroup` appends the message to the group of its key. -/
theorem insertGroup_lookup_self (acc : List (String × List Message)) (k : String)
    (m : Message) : lookupG (insertGroup acc k m) k = lookupG acc k ++ [m] := by
  unfold insertGroup lookupG
  split
  · rename_i hany
    rw [replaceGroup_find_self]
    obtain ⟨p, hp, hpk⟩ := List.any_eq_true.mp hany
    have hfind : (acc.find? (fun p => p.1 = k)).isSome := by
      rw [List.find?_isSome]
      exact ⟨p, hp, hpk⟩
    obtain ⟨x, hx⟩ := Option.isSome_iff_exists.mp hfind
    rw [hx]
    rfl
  · rename_i hany
    rw [List.find?_append]
    have hnone : acc.find? (fun p => p.1 = k) = none := by
      rw [List.find?_eq_none]
      intro x hx
      have := List.any_eq_false.mp (Bool.not_eq_true _ ▸ hany) x hx
      simpa using this
    rw [hnone, Option.none_or, List.find?_cons_of_pos _ (by simp)]
    simp

/-- `insertGroup` leaves the other groups unchanged. -/
theorem insertGroup_lookup_ne (acc : List (String × List Message)) (k : String)
    (m : Message) (k' : String) (hk : k' ≠ k) :
    lookupG (insertGroup acc k m) k' = lookupG acc k' := by
  unfold insertGroup lookupG
  split
  · rw [replaceGroup_find_ne k m k' hk]
  · rw [List.find?_append]
    have h1 : ([(k, [m])] : List (String × List Message)).find? (fun p => p.1 = k') =
        none := by
      rw [List.find?_eq_none]
      intro x hx
      rw [List.mem_singleton] at hx
      subst hx
      simpa using fun hh => hk hh.symm
    rw [h1, Option.or_none]

/-- The group keys after an `insertGroup`. -/
theorem insertGroup_keys (acc : List (String × List Message)) (k : String) (m : Message) :
    (insertGroup acc k m).map Prod.fst =
      if acc.any (fun p => p.1 = k) then acc.map Prod.fst else acc.map Prod.fst ++ [k] := by
  unfold insertGroup
  split
  · rw [List.map_map]
    refine List.map_congr_left (fun p _ => ?_)
    by_cases hp : p.1 = k
    · simp [hp]
    · simp [hp]
  · rw [List.map_append]
    rfl

/-- `insertGroup` preserves distinctness of the group keys. -/
theorem insertGroup_nodup_keys (acc : List (String × List Message)) (k : String)
    (m : Message) (h : (acc.map Prod.fst).Nodup) :
    ((insertGroup acc k m).map Prod.fst).Nodup := by
  rw [insertGroup_keys]
  split
  · exact h
  · rename_i hany
    have hnot : k ∉ acc.map Prod.fst := by
      rw [List.mem_map]
      rintro ⟨p, hp, hpk⟩
      have := List.any_eq_false.mp (Bool.not_eq_true _ ▸ hany) p hp
      simp [hpk] at this
    rw [List.nodup_append]
    refine ⟨h, List.nodup_singleton k, fun a ha hk' => ?_⟩
    rw [List.mem_singleton] at hk'
    subst hk'
    exact hnot ha

/-- Key presence after an `insertGroup`. -/
theorem insertGroup_hasKey (acc : List (String × List Message)) (k : String) (m : Message)
    (k' : String) :
    ((insertGroup acc k m).find? (fun p => p.1 = k')).isSome = true ↔
      ((acc.find? (fun p => p.1 = k')).isSome = true ∨ k' = k) := by
  by_cases hk : k' = k
  · subst hk
    constructor
    · intro _
      exact Or.inr rfl
    · intro _
      unfold insertGroup
      split
      · rw [replaceGroup_find_self]
        rename_i hany
        obtain ⟨p, hp, hpk⟩ := List.any_eq_true.mp hany
        have hfind : (acc.find? (fun p => p.1 = k')).isSome := by
          rw [List.find?_isSome]
          exact ⟨p, hp, hpk⟩
        obtain ⟨x, hx⟩ := Option.isSome_iff_exists.mp hfind
        rw [hx]
        rfl
      · rw [List.find?_append]
        cases hf : acc.find? (fun p => p.1 = k') with
        | none => rw [Option.none_or, List.find?_cons_of_pos _ (by simp)]; rfl
        | some x => rw [some_or_eq]; rfl
  · rw [show (insertGroup acc k m).find? (fun p => p.1 = k') =
        acc.find? (fun p => p.1 = k') from ?_]
    · simp [hk]
    · unfold insertGroup
      split
      · exact replaceGroup_find_ne k m k' hk acc
      · rw [List.find?_append]
        have h1 : ([(k, [m])] : List (String × List Message)).find? (fun p => p.1 = k') =
            none := by
          rw [List.find?_eq_none]
          intro x hx
          rw [List.mem_singleton] at hx
          subst hx
          simpa using fun hh => hk hh.symm
        rw [h1, Option.or_none]

/-- Grouping folds one message at a time: each group collects, in order, the
messages keyed to it. -/
theorem groupFold_lookup (k : String) :
    ∀ (msgs : List Message) (acc : List (String × List Message)),
      lookupG (msgs.foldl (fun acc m =>
        match m.ts with
        | none => acc
        | some s => if s = "" then acc else insertGroup acc (timestamp_to_date s) m) acc) k =
      lookupG acc k ++ msgs.filter (fun m => keyedTo m k)
  | [], acc => by simp
  | m :: t, acc => by
      rw [List.foldl_cons]
      cases hts : m.ts with
      | none =>
          have hkt : keyedTo m k = false := by simp [keyedTo, truthyTs, hts]
          rw [List.filter_cons_of_neg (by simp [hkt])]
          simp only [hts]
          exact groupFold_lookup k t acc
      | some s =>
          by_cases hs : s = ""
          · subst hs
            have hkt : keyedTo m k = false := by simp [keyedTo, truthyTs, hts]
            rw [List.filter_cons_of_neg (by simp [hkt])]
            simp only [hts, if_pos rfl]
            exact groupFold_lookup k t acc
          · have hdk : msgDateKey m = timestamp_to_date s := by
              rw [msgDateKey, hts]
              rfl
            have htr : truthyTs m = true := by simp [truthyTs, hts, hs]
            simp only [hts, if_neg hs]
            by_cases hk : timestamp_to_date s = k
            · subst hk
              have hkt : keyedTo m (timestamp_to_date s) = true := by
                simp [keyedTo, htr, hdk]
              rw [List.filter_cons_of_pos (by simp [hkt]),
                groupFold_lookup (timestamp_to_date s) t _, insertGroup_lookup_self]
              simp
            · have hkt : keyedTo m k = false := by
                simp [keyedTo, hdk, hk]
              rw [List.filter_cons_of_neg (by simp [hkt]),
                groupFold_lookup k t _,
                insertGroup_lookup_ne _ _ _ _ (fun hh => hk hh.symm)]

/-- Grouping keeps the date keys distinct. -/
theorem groupFold_nodup_keys :
    ∀ (msgs : List Message) (acc : List (String × List Message)),
      (acc.map Prod.fst).Nodup →
      ((msgs.foldl (fun acc m =>
        match m.ts with
        | none => acc
        | some s => if s = "" then acc else insertGroup acc (timestamp_to_date s) m)
          acc).map Prod.fst).Nodup
  | [], _, h => h
  | m :: t, acc, h => by
      rw [List.foldl_cons]
      cases hts : m.ts with
      | none =>
          simp only [hts]
          exact groupFold_nodup_keys t acc h
      | some s =>
          by_cases hs : s = ""
          · subst hs
            simp only [hts, if_pos rfl]
            exact groupFold_nodup_keys t acc h
          · simp only [hts, if_neg hs]
            exact groupFold_nodup_keys t _ (insertGroup_nodup_keys _ _ _ h)

/-- The date keys of `groupByDate` are distinct. -/
theorem groupByDate_keys_nodup (msgs : List Message) :
    ((groupByDate msgs).map Prod.fst).Nodup :=
  groupFold_nodup_keys msgs [] (by simp)

/-- Each `groupByDate` group is exactly the in-order filter of the messages
keyed to it. -/
theorem groupByDate_lookup (msgs : List Message) (k : String) :
    lookupG (groupByDate msgs) k = msgs.filter (fun m => keyedTo m k) := by
  have h := groupFold_lookup k msgs []
  simpa [lookupG] using h

/-- Membership form of `groupByDate_lookup`. -/
theorem mem_groupByDate_eq (msgs : List Message) (p : String × List Message)
    (hp : p ∈ groupByDate msgs) : p.2 = msgs.filter (fun m => keyedTo m p.1) := by
  have hf := find?_key_of_mem_nodup Prod.fst (groupByDate_keys_nodup msgs) hp rfl
  have hl : lookupG (groupByDate msgs) p.1 = p.2 := by
    rw [lookupG, hf]
    rfl
  rw [← hl, groupByDate_lookup]

/-- A timestamp that parses and is in `datetime` range maps to its UTC
date. -/
theorem timestamp_to_date_eq {s : String} {q : ℚ} {d : String}
    (hq : pyFloat s = some q) (hd : utcDateOf q = some d) : timestamp_to_date s = d := by
  unfold timestamp_to_date
  rw [hq]
  show (match utcDateOf q with | none => "unknown-date" | some d => d) = d
  rw [hd]

/-- `mapM` over `Option` succeeds pointwise. -/
theorem mapM_option_eq_some {α β : Type} (f : α → Option β) (g : α → β) :
    ∀ l : List α, (∀ x ∈ l, f x = some (g x)) → l.mapM f = some (l.map g)
  | [], _ => rfl
  | a :: t, h => by
      rw [List.mapM_cons, h a (List.mem_cons_self a t),
        mapM_option_eq_some f g t (fun x hx => h x (List.mem_cons_of_mem a hx))]
      rfl

/-- C1: when every message has a valid numeric `ts`, date partitioning
succeeds; the group keys are distinct; each group is the stable sort (by
numeric `ts`) of exactly the messages whose UTC date is that key — so every
message lands in exactly one group, the one keyed by the UTC date derived
from its `ts`, and each group is non-decreasing in numeric `ts` with ties in
input order. -/
theorem c1_split_messages_by_date (messages : List Message)
    (h : ∀ m ∈ messages, ∃ s q, m.ts = some s ∧ s ≠ "" ∧ pyFloat s = some q ∧
      (utcDateOf q).isSome = true) :
    ∃ gs, split_messages_by_date messages = some gs ∧
      (gs.map Prod.fst).Nodup ∧
      (∀ p ∈ gs, p.2 = (messages.filter (fun m => keyedTo m p.1)).insertionSort tsLe) ∧
      (∀ p ∈ gs, p.2.Pairwise (fun a b => tsNum a ≤ tsNum b)) ∧
      (∀ m ∈ messages, ∀ s q, m.ts = some s → pyFloat s = some q →
        ∀ p ∈ gs, (m ∈ p.2 ↔ utcDateOf q = some p.1)) ∧
      (∀ m ∈ messages, ∃ p ∈ gs, m ∈ p.2) := by
  have hgroups : ∀ p ∈ groupByDate messages,
      p.2 = messages.filter (fun m => keyedTo m p.1) :=
    fun p hp => mem_groupByDate_eq messages p hp
  have hsortable : ∀ p ∈ groupByDate messages,
      sortGroup p.2 = some (p.2.insertionSort tsLe) := by
    intro p hp
    unfold sortGroup
    rw [if_pos]
    rw [List.all_eq_true]
    intro m hm
    rw [hgroups p hp, List.mem_filter] at hm
    obtain ⟨s, q, hts, _, hq, _⟩ := h m hm.1
    rw [sortKeyTs, hts]
    simp [hq]
  have hmapM : split_messages_by_date messages =
      some ((groupByDate messages).map (fun p => (p.1, p.2.insertionSort tsLe))) := by
    unfold split_messages_by_date
    refine mapM_option_eq_some _ _ _ (fun p hp => ?_)
    rw [hsortable p hp]
    rfl
  refine ⟨_, hmapM, ?_, ?_, ?_, ?_, ?_⟩
  · have hkeys : ((groupByDate messages).map
        (fun p => (p.1, p.2.insertionSort tsLe))).map Prod.fst =
        (groupByDate messages).map Prod.fst := by
      rw [List.map_map]
      rfl
    rw [hkeys]
    exact groupByDate_keys_nodup messages
  · intro p hp
    obtain ⟨p0, hp0, hpe⟩ := List.mem_map.mp hp
    rw [← hpe]
    have := hgroups p0 hp0
    rw [this]
  · intro p hp
    obtain ⟨p0, hp0, hpe⟩ := List.mem_map.mp hp
    rw [← hpe]
    exact List.sorted_insertionSort tsLe p0.2
  · intro m hm s q hts hq p hp
    obtain ⟨p0, hp0, hpe⟩ := List.mem_map.mp hp
    obtain ⟨s', q', hts', hs', hq', hd'⟩ := h m hm
    rw [hts] at hts'
    obtain rfl : s = s' := Option.some.inj hts'
    rw [hq] at hq'
    obtain rfl : q = q' := Option.some.inj hq'
    obtain ⟨d, hd⟩ := Option.isSome_iff_exists.mp hd'
    have hdk : msgDateKey m = d := by
      rw [msgDateKey, hts]
      exact timestamp_to_date_eq hq hd
    have htr : truthyTs m = true := by simp [truthyTs, hts, hs']
    rw [← hpe]
    show m ∈ p0.2.insertionSort tsLe ↔ utcDateOf q = some p0.1
    rw [List.mem_insertionSort, hgroups p0 hp0, List.mem_filter]
    constructor
    · rintro ⟨-, hkt⟩
      rw [keyedTo, htr, hdk] at hkt
      simp only [Bool.true_and, decide_eq_true_eq] at hkt
      rw [hd, hkt]
    · intro hdp
      rw [hd] at hdp
      refine ⟨hm, ?_⟩
      rw [keyedTo, htr, hdk]
      simpa using Option.some.inj hdp
  · intro m hm
    obtain ⟨s, q, hts, hs, hq, hd'⟩ := h m hm
    have htr : truthyTs m = true := by simp [truthyTs, hts, hs]
    have hmem : m ∈ messages.filter (fun m' => keyedTo m' (msgDateKey m)) := by
      rw [List.mem_filter]
      exact ⟨hm, by simp [keyedTo, htr]⟩
    have hne : lookupG (groupByDate messages) (msgDateKey m) ≠ [] := by
      rw [groupByDate_lookup]
      intro hnil
      rw [hnil] at hmem
      exact absurd hmem (List.not_mem_nil m)
    cases hf : (groupByDate messages).find? (fun p => p.1 = msgDateKey m) with
    | none =>
        exfalso
        refine hne ?_
        rw [lookupG, hf]
        rfl
    | some p0 =>
        have hp0 := List.mem_of_find?_eq_some hf
        have hpk : p0.1 = msgDateKey m := by simpa using List.find?_some hf
        refine ⟨(p0.1, p0.2.insertionSort tsLe), List.mem_map_of_mem _ hp0, ?_⟩
        show m ∈ p0.2.insertionSort tsLe
        rw [List.mem_insertionSort, hgroups p0 hp0, hpk]
        exact hmem

/-- An integer timestamp has no fractional part to round. -/
theorem fromtimestampSeconds_intCast (n : ℤ) : fromtimestampSeconds ((n : ℚ)) = n := by
  unfold fromtimestampSeconds
  rw [Int.floor_intCast, if_neg]
  rw [sub_self]
  norm_num

/-- Exact value of `pyFloat` on the digit literal 1700000000. -/
theorem pyFloat_1700000000 : pyFloat "1700000000" = some 1700000000 := by
  have h0 : pyFloat "1700000000" =
      some (((1 : Int) : ℚ) * ((digitsVal "1700000000".toList : ℚ) +
        (digitsVal ([] : List Char) : ℚ) / (10 : ℚ) ^ ([] : List Char).length) *
        (10 : ℚ) ^ (0 : Int)) := rfl
  rw [h0, show digitsVal "1700000000".toList = 1700000000 from by decide,
    show digitsVal ([] : List Char) = 0 from rfl]
  norm_num

/-- Exact value of `pyFloat` on the digit literal 1700000100. -/
theorem pyFloat_1700000100 : pyFloat "1700000100" = some 1700000100 := by
  have h0 : pyFloat "1700000100" =
      some (((1 : Int) : ℚ) * ((digitsVal "1700000100".toList : ℚ) +
        (digitsVal ([] : List Char) : ℚ) / (10 : ℚ) ^ ([] : List Char).length) *
        (10 : ℚ) ^ (0 : Int)) := rfl
  rw [h0, show digitsVal "1700000100".toList = 1700000100 from by decide,
    show digitsVal ([] : List Char) = 0 from rfl]
  norm_num

/-- The UTC date of timestamp 1700000000. -/
theorem utcDateOf_1700000000 : utcDateOf (1700000000 : ℚ) = some "2023-11-14" := by
  have h1 : (1700000000 : ℚ) = ((1700000000 : ℤ) : ℚ) := by norm_cast
  rw [utcDateOf, h1, fromtimestampSeconds_intCast]
  decide

/-- The UTC date of timestamp 1700000100. -/
theorem utcDateOf_1700000100 : utcDateOf (1700000100 : ℚ) = some "2023-11-14" := by
  have h1 : (1700000100 : ℚ) = ((1700000100 : ℤ) : ℚ) := by norm_cast
  rw [utcDateOf, h1, fromtimestampSeconds_intCast]
  decide

/-- C1 witness: three messages (two sharing a timestamp) are grouped under
their UTC date and sorted non-decreasingly with the tie kept in input
order. -/
theorem c1_split_messages_by_date_witness :
    ∃ gs, split_messages_by_date
        [{ ts := some "1700000100", text := "a" }, { ts := some "1700000000", text := "b" },
          { ts := some "1700000000", text := "c" }] = some gs ∧
      (gs.map Prod.fst).Nodup ∧
      (∀ p ∈ gs, p.2 = (([{ ts := some "1700000100", text := "a" },
        { ts := some "1700000000", text := "b" },
        { ts := some "1700000000", text := "c" }] : List Message).filter
          (fun m => keyedTo m p.1)).insertionSort tsLe) ∧
      (∀ p ∈ gs, p.2.Pairwise (fun a b => tsNum a ≤ tsNum b)) ∧
      (∀ m ∈ ([{ ts := some "1700000100", text := "a" },
        { ts := some "1700000000", text := "b" },
        { ts := some "1700000000", text := "c" }] : List Message), ∀ s q,
          m.ts = some s → pyFloat s = some q →
          ∀ p ∈ gs, (m ∈ p.2 ↔ utcDateOf q = some p.1)) ∧
      (∀ m ∈ ([{ ts := some "1700000100", text := "a" },
        { ts := some "1700000000", text := "b" },
        { ts := some "1700000000", text := "c" }] : List Message), ∃ p ∈ gs, m ∈ p.2) :=
  c1_split_messages_by_date
    [{ ts := some "1700000100", text := "a" }, { ts := some "1700000000", text := "b" },
      { ts := some "1700000000", text := "c" }]
    (by
      intro m hm
      fin_cases hm
      · exact ⟨"1700000100", (1700000100 : ℚ), rfl, by decide, pyFloat_1700000100,
          by rw [utcDateOf_1700000100]; rfl⟩
      · exact ⟨"1700000000", (1700000000 : ℚ), rfl, by decide, pyFloat_1700000000,
          by rw [utcDateOf_1700000000]; rfl⟩
      · exact ⟨"1700000000", (1700000000 : ℚ), rfl, by decide, pyFloat_1700000000,
          by rw [utcDateOf_1700000000]; rfl⟩)

/-! ### C2: thread expansion -/

/-- Inserting a fresh key appends. -/
theorem pyDictInsert_of_fresh {κ β : Type} [DecidableEq κ] (acc : List (κ × β)) (k : κ)
    (v : β) (h : ∀ p ∈ acc, p.1 ≠ k) : pyDictInsert acc k v = acc ++ [(k, v)] := by
  unfold pyDictInsert
  rw [if_neg]
  rw [Bool.not_eq_true, List.any_eq_false]
  intro p hp
  simpa using h p hp

/-- The Boolean expansion condition in propositional form. -/
theorem expandCond_iff (m : Message) :
    expandCond m = true ↔ (m.thread_ts = m.ts ∧ 0 < m.reply_count) := by
  simp [expandCond]

/-- With distinct reply timestamps the `ts`-keyed dict is just the pairing of
each reply with its timestamp. -/
theorem byTsDict_fold :
    ∀ (thread : List Message) (acc : List (String × Message)),
      (∀ m ∈ thread, m.ts.isSome = true) →
      (thread.map Message.ts).Nodup →
      (∀ m ∈ thread, ∀ p ∈ acc, some p.1 ≠ m.ts) →
      thread.foldlM (fun acc m =>
        match m.ts with
        | some t => some (pyDictInsert acc t m)
        | none => none) acc =
        some (acc ++ thread.map (fun m => (m.ts.getD "", m)))
  | [], acc, _, _, _ => by simp
  | m :: th, acc, hs, hnd, hfresh => by
      obtain ⟨tm, htm⟩ := Option.isSome_iff_exists.mp (hs m (List.mem_cons_self m th))
      rw [List.map_cons, List.nodup_cons] at hnd
      rw [List.foldlM_cons, htm]
      dsimp only
      rw [pyDictInsert_of_fresh acc tm m (fun p hp => by
        have hf := hfresh m (List.mem_cons_self m th) p hp
        rw [htm] at hf
        intro hh
        exact hf (by rw [hh]))]
      have hrec := byTsDict_fold th (acc ++ [(tm, m)])
        (fun y hy => hs y (List.mem_cons_of_mem m hy)) hnd.2
        (fun y hy p hp => by
          rcases List.mem_append.mp hp with hpa | hpm
          · exact hfresh y (List.mem_cons_of_mem m hy) p hpa
          · rw [List.mem_singleton] at hpm
            subst hpm
            intro hh
            have hh2 : some tm = y.ts := hh
            exact hnd.1 (by
              rw [htm, hh2]
              exact List.mem_map_of_mem Message.ts hy))
      show (th.foldlM _ (acc ++ [(tm, m)])) = _
      rw [hrec]
      rw [List.map_cons, htm]
      simp [List.append_assoc]

/-- Filtering the `ts`-keyed dict by key and projecting values is filtering
the replies by timestamp. -/
theorem pairs_filter_map (tm : String) :
    ∀ thread : List Message, (∀ x ∈ thread, x.ts.isSome = true) →
      ((thread.map (fun x => (x.ts.getD "", x))).filter
          (fun p => p.1 ≠ tm)).map Prod.snd =
        thread.filter (fun x => x.ts ≠ some tm)
  | [], _ => rfl
  | x :: th, h => by
      obtain ⟨tx, htx⟩ := Option.isSome_iff_exists.mp (h x (List.mem_cons_self x th))
      have hrec := pairs_filter_map tm th (fun y hy => h y (List.mem_cons_of_mem x hy))
      rw [List.map_cons, List.filter_cons, List.filter_cons]
      by_cases htm : tx = tm
      · subst htm
        simp only [htx]
        rw [if_neg (by simp), if_neg (by simp)]
        exact hrec
      · simp only [htx]
        rw [if_pos (by simpa using htm), if_pos (by simpa using htm), List.map_cons, hrec]

/-- Under the upstream thread contract, `_collect_messages` succeeds and each
history message contributes itself plus (for expanded roots) its
deduplicated replies. -/
theorem collect_eq (threads : String → List Message) :
    ∀ (history : List Message) (acc : List Message),
      (∀ m ∈ history, m.ts.isSome = true) →
      (∀ m ∈ history, ∀ t', m.ts = some t' → expandCond m = true →
        (∀ x ∈ threads t', x.ts.isSome = true) ∧
        ((threads t').map Message.ts).Nodup) →
      history.foldlM (collect_step threads) acc =
        some (acc ++ history.flatMap (contribution threads))
  | [], acc, _, _ => by simp
  | m :: t, acc, hs, hth => by
      obtain ⟨tm, htm⟩ := Option.isSome_iff_exists.mp (hs m (List.mem_cons_self m t))
      rw [List.foldlM_cons]
      have hstep : collect_step threads acc m =
          some (acc ++ contribution threads m) := by
        unfold collect_step contribution
        by_cases hexp : m.thread_ts = m.ts ∧ 0 < m.reply_count
        · rw [if_pos hexp, htm]
          dsimp only
          have hexp' : expandCond m = true := (expandCond_iff m).mpr hexp
          obtain ⟨hth1, hth2⟩ := hth m (List.mem_cons_self m t) tm htm hexp'
          have hbyts : byTsDict (threads tm) =
              some ((threads tm).map (fun x => (x.ts.getD "", x))) := by
            unfold byTsDict
            have := byTsDict_fold (threads tm) [] hth1 hth2 (by simp)
            simpa using this
          rw [hbyts]
          rw [if_pos hexp']
          simp only [Option.map_some']
          rw [pairs_filter_map tm (threads tm) hth1]
          rw [repliesOf, htm]
          simp [List.append_assoc]
        · rw [if_neg hexp]
          have hexp' : expandCond m = false := by
            rw [← Bool.not_eq_true, expandCond_iff]
            exact hexp
          rw [hexp']
          simp
      rw [hstep]
      show t.foldlM (collect_step threads) (acc ++ contribution threads m) = _
      rw [collect_eq threads t (acc ++ contribution threads m)
        (fun y hy => hs y (List.mem_cons_of_mem m hy))
        (fun y hy => hth y (List.mem_cons_of_mem m hy))]
      rw [List.flatMap_cons]
      simp [List.append_assoc]

/-- Filtering strictly shrinks a list that has a rejected member. -/
theorem filter_length_lt_of_mem {α : Type} {p : α → Bool} :
    ∀ {l : List α} {x : α}, x ∈ l → p x = false → (l.filter p).length < l.length
  | [], x, hx, _ => absurd hx (List.not_mem_nil x)
  | a :: t, x, hx, hpx => by
      rw [List.filter_cons]
      rcases List.mem_cons.mp hx with rfl | hxt
      · rw [if_neg (by simp [hpx])]
        exact Nat.lt_succ_of_le (List.length_filter_le p t)
      · by_cases hpa : p a = true
        · rw [if_pos (by simp [hpa])]
          simpa using filter_length_lt_of_mem hxt hpx
        · rw [if_neg (by simp [hpa])]
          exact Nat.lt_succ_of_lt (filter_length_lt_of_mem hxt hpx)

/-- Sum of a function over a duplicate-free list that vanishes away from one
member. -/
theorem sum_eq_single_of_nodup {α : Type} (f : α → Nat) (r : α) :
    ∀ l : List α, l.Nodup → r ∈ l → (∀ m ∈ l, m ≠ r → f m = 0) →
      (l.map f).sum = f r
  | [], _, hr, _ => absurd hr (List.not_mem_nil r)
  | a :: t, hnd, hr, hz => by
      rw [List.map_cons, List.sum_cons]
      rcases List.mem_cons.mp hr with rfl | hrt
      · have hzt : (t.map f).sum = 0 := by
          refine List.sum_eq_zero (fun x hx => ?_)
          obtain ⟨y, hy, hyx⟩ := List.mem_map.mp hx
          rw [← hyx]
          refine hz y (List.mem_cons_of_mem _ hy) (fun hcon => ?_)
          subst hcon
          exact (List.nodup_cons.mp hnd).1 hy
        rw [hzt]
        omega
      · have hza : f a = 0 := by
          refine hz a (List.mem_cons_self a t) (fun hcon => ?_)
          subst hcon
          exact (List.nodup_cons.mp hnd).1 hrt
        rw [hza, sum_eq_single_of_nodup f r t (List.nodup_cons.mp hnd).2 hrt
          (fun y hy hyr => hz y (List.mem_cons_of_mem a hy) hyr)]
        omega

/-- Unfolding `repliesOf` at a known timestamp. -/
theorem repliesOf_eq {threads : String → List Message} {m : Message} {tm : String}
    (h : m.ts = some tm) :
    repliesOf threads m = (threads tm).filter (fun x => x.ts ≠ some tm) := by
  unfold repliesOf
  rw [h]

/-- C2: under the upstream thread contract (unique timestamps, replies that
re-include the parent, reply counts bounding thread sizes), the collected
message set contains the thread root exactly once (from the history pass,
with the re-included parent deduplicated away), at most `N` additional
messages sharing its `thread_ts`, and no duplicated `ts` anywhere. -/
theorem c2_collect_messages (threads : String → List Message) (history : List Message)
    (r : Message) (t : String) (N : Nat)
    (hr : r ∈ history)
    (hrts : r.ts = some t)
    (hrtt : r.thread_ts = some t)
    (hrc : r.reply_count = N)
    (hts : ∀ m ∈ history, m.ts.isSome = true)
    (hnd : (history.map Message.ts).Nodup)
    (honly : ∀ m ∈ history, m.thread_ts = some t → m.ts = some t)
    (hth : ∀ m ∈ history, ∀ t', m.ts = some t' → expandCond m = true →
      (∀ x ∈ threads t', x.ts.isSome = true) ∧
      ((threads t').map Message.ts).Nodup ∧
      (∀ x ∈ threads t', x.thread_ts = some t') ∧
      (∃ x ∈ threads t', x.ts = some t') ∧
      ((threads t').length ≤ m.reply_count + 1) ∧
      (∀ x ∈ threads t', x.ts ≠ some t' → ∀ m' ∈ history, x.ts ≠ m'.ts))
    (hcross : ∀ m ∈ history, ∀ m' ∈ history, ∀ t1 t2, m.ts = some t1 → m'.ts = some t2 →
      t1 ≠ t2 → expandCond m = true → expandCond m' = true →
      ∀ x ∈ threads t1, ∀ y ∈ threads t2, x.ts ≠ some t1 → y.ts ≠ some t2 →
        x.ts ≠ y.ts) :
    ∃ out, collect_messages threads history = some out ∧
      out.count r = 1 ∧
      (∀ m ∈ out, m.ts = some t → m = r) ∧
      ((out.filter (fun m => m.thread_ts = some t ∧ m.ts ≠ some t)).length ≤ N) ∧
      (out.map Message.ts).Nodup := by
  have hcol : collect_messages threads history =
      some (history.flatMap (contribution threads)) := by
    unfold collect_messages
    have h := collect_eq threads history [] hts
      (fun m hm t' h1 h2 => ⟨(hth m hm t' h1 h2).1, (hth m hm t' h1 h2).2.1⟩)
    simpa using h
  have hmap : (history.flatMap (contribution threads)).map Message.ts =
      history.flatMap (fun m => (contribution threads m).map Message.ts) :=
    List.map_flatMap _ _ _
  have hblock : ∀ m ∈ history, ((contribution threads m).map Message.ts).Nodup := by
    intro m hm
    unfold contribution
    rw [List.map_cons]
    by_cases hexp : expandCond m = true
    · rw [if_pos hexp]
      obtain ⟨tm, htm⟩ := Option.isSome_iff_exists.mp (hts m hm)
      obtain ⟨h1, h2, -, -, -, -⟩ := hth m hm tm htm hexp
      rw [repliesOf_eq htm, List.nodup_cons]
      constructor
      · intro hmem
        obtain ⟨x, hx, hxe⟩ := List.mem_map.mp hmem
        have hxne := (List.mem_filter.mp hx).2
        simp only [decide_not, Bool.not_eq_eq_eq_not, Bool.not_true, decide_eq_false_iff_not]
          at hxne
        exact hxne (by rw [hxe, htm])
      · exact h2.sublist ((List.filter_sublist _).map Message.ts)
    · rw [if_neg hexp]
      simp
  have hpair : history.Pairwise (fun a b =>
      ((contribution threads a).map Message.ts).Disjoint
        ((contribution threads b).map Message.ts)) := by
    have hne : history.Pairwise (fun a b => a.ts ≠ b.ts) := List.pairwise_map.mp hnd
    have hmem_block : ∀ c ∈ history, ∀ w, w ∈ (contribution threads c).map Message.ts →
        w = c.ts ∨ (expandCond c = true ∧ ∃ tc, c.ts = some tc ∧
          ∃ x ∈ threads tc, x.ts ≠ some tc ∧ w = x.ts) := by
      intro c hc w hw
      unfold contribution at hw
      rw [List.map_cons, List.mem_cons] at hw
      rcases hw with rfl | hw
      · exact Or.inl rfl
      · by_cases hexp : expandCond c = true
        · rw [if_pos hexp] at hw
          obtain ⟨tc, htc⟩ := Option.isSome_iff_exists.mp (hts c hc)
          rw [repliesOf_eq htc] at hw
          obtain ⟨x, hx, hxe⟩ := List.mem_map.mp hw
          have hxf := List.mem_filter.mp hx
          refine Or.inr ⟨hexp, tc, htc, x, hxf.1, ?_, hxe.symm⟩
          have := hxf.2
          simp only [decide_not, Bool.not_eq_eq_eq_not, Bool.not_true,
            decide_eq_false_iff_not] at this
          exact this
        · rw [if_neg hexp] at hw
          simp at hw
    refine hne.imp_of_mem (fun {a b} ha hb hneq => ?_)
    intro v hva hvb
    rcases hmem_block a ha v hva with h1 | ⟨hexpa, ta, hta, x, hxmem, hxne, hxv⟩ <;>
      rcases hmem_block b hb v hvb with h2 | ⟨hexpb, tb, htb, y, hymem, hyne, hyv⟩
    · exact hneq (by rw [← h1, ← h2])
    · have h6b := (hth b hb tb htb hexpb).2.2.2.2.2
      exact h6b y hymem hyne a ha (by rw [← hyv, ← h1])
    · have h6a := (hth a ha ta hta hexpa).2.2.2.2.2
      exact h6a x hxmem hxne b hb (by rw [← hxv, ← h2])
    · have htab : ta ≠ tb := by
        intro hcon
        subst hcon
        exact hneq (by rw [hta, htb])
      exact hcross a ha b hb ta tb hta htb htab hexpa hexpb x hxmem y hymem hxne hyne
        (by rw [← hxv, ← hyv])
  have hndout : ((history.flatMap (contribution threads)).map Message.ts).Nodup := by
    rw [hmap]
    refine List.nodup_flatMap.mpr ⟨hblock, ?_⟩
    exact hpair
  have hrout : r ∈ history.flatMap (contribution threads) :=
    List.mem_flatMap.mpr ⟨r, hr, List.mem_cons_self _ _⟩
  have hc1 : (history.flatMap (contribution threads)).count r = 1 := by
    have hle := List.count_le_count_map (history.flatMap (contribution threads))
      Message.ts r
    rw [hrts] at hle
    have hle1 := List.nodup_iff_count_le_one.mp hndout (some t)
    have hge := List.count_pos_iff.mpr hrout
    omega
  have huniq : ∀ m ∈ history.flatMap (contribution threads), m.ts = some t → m = r := by
    intro m hm hmts
    exact List.inj_on_of_nodup_map hndout hm hrout (by rw [hmts, hrts])
  have hhist_nodup : history.Nodup := List.Nodup.of_map _ hnd
  have hbound : ((history.flatMap (contribution threads)).filter
      (fun m => m.thread_ts = some t ∧ m.ts ≠ some t)).length ≤ N := by
    rw [List.filter_flatMap, List.length_flatMap]
    simp only [Function.comp_def]
    have hz : ∀ m ∈ history, m ≠ r →
        ((contribution threads m).filter
          (fun x => x.thread_ts = some t ∧ x.ts ≠ some t)).length = 0 := by
      intro m hm hmr
      rw [List.length_eq_zero, List.filter_eq_nil_iff]
      intro x hx
      obtain ⟨tm, htm⟩ := Option.isSome_iff_exists.mp (hts m hm)
      have htmne : (some tm : Option String) ≠ some t := by
        intro hcon
        refine hmr (List.inj_on_of_nodup_map hnd hm hr ?_)
        rw [htm, hrts, hcon]
      unfold contribution at hx
      rw [List.mem_cons] at hx
      rcases hx with rfl | hx
      · intro hcon
        simp only [decide_eq_true_eq, Bool.and_eq_true, decide_not] at hcon
        exact htmne (by rw [← htm, honly x hm hcon.1])
      · by_cases hexp : expandCond m = true
        · rw [if_pos hexp] at hx
          rw [repliesOf_eq htm] at hx
          have h3 := (hth m hm tm htm hexp).2.2.1
          have hxt := h3 x (List.mem_filter.mp hx).1
          intro hcon
          simp only [decide_eq_true_eq, Bool.and_eq_true, decide_not] at hcon
          exact htmne (by rw [← hxt, hcon.1])
        · rw [if_neg hexp] at hx
          simp at hx
    rw [sum_eq_single_of_nodup _ r history hhist_nodup hr hz]
    by_cases hexp : expandCond r = true
    · obtain ⟨-, -, -, h4, h5, -⟩ := hth r hr t hrts hexp
      unfold contribution
      rw [if_pos hexp, repliesOf_eq hrts, List.filter_cons]
      rw [if_neg (by
        simp only [decide_eq_true_eq, Bool.and_eq_true, decide_not]
        intro hcon
        exact absurd hrts (by simpa using hcon.2))]
      obtain ⟨px, hpx, hpxts⟩ := h4
      have hlt : (((threads t).filter (fun x => x.ts ≠ some t)).length < (threads t).length) := by
        refine filter_length_lt_of_mem hpx ?_
        simp [hpxts]
      have hle2 := List.length_filter_le
        (fun x => decide (x.thread_ts = some t) && !decide (x.ts = some t))
        ((threads t).filter (fun x => x.ts ≠ some t))
      rw [hrc] at h5
      calc (((threads t).filter (fun x => x.ts ≠ some t)).filter
            (fun x => x.thread_ts = some t ∧ x.ts ≠ some t)).length
          ≤ ((threads t).filter (fun x => x.ts ≠ some t)).length :=
            List.length_filter_le _ _
        _ ≤ N := by omega
    · unfold contribution
      rw [if_neg hexp, List.filter_cons]
      rw [if_neg (by
        simp only [decide_eq_true_eq, Bool.and_eq_true, decide_not]
        intro hcon
        exact absurd hrts (by simpa using hcon.2))]
      simp
  exact ⟨history.flatMap (contribution threads), hcol, hc1, huniq, hbound, hndout⟩

theorem c2_collect_messages_witness :
    ∃ out, collect_messages
      (fun t' => if t' = "10" then
        [⟨some "10", some "10", 2, "root"⟩, ⟨some "11", some "10", 0, "a"⟩,
         ⟨some "12", some "10", 0, "b"⟩] else [])
      [⟨some "10", some "10", 2, "root"⟩] = some out ∧
      out.count ⟨some "10", some "10", 2, "root"⟩ = 1 ∧
      (∀ m ∈ out, m.ts = some "10" → m = ⟨some "10", some "10", 2, "root"⟩) ∧
      ((out.filter (fun m => m.thread_ts = some "10" ∧ m.ts ≠ some "10")).length ≤ 2) ∧
      (out.map Message.ts).Nodup := by
  refine c2_collect_messages _ _ ⟨some "10", some "10", 2, "root"⟩ "10" 2
    (by decide) rfl rfl rfl (by decide) (by decide) (by decide) ?_ ?_
  · intro m hm t' h1 h2
    fin_cases hm
    injection h1 with h1'
    subst h1'
    decide
  · intro m hm m' hm' t1 t2 h1 h2 hne he1 he2
    fin_cases hm
    fin_cases hm'
    injection h1 with h1'
    injection h2 with h2'
    exact absurd (h1'.symm.trans h2') hne

/-! ### C3: filesystem lemmas -/

/-- `find?` by first component through a first-component-preserving map. -/
theorem find?_map_fst_eq {β : Type} (f : (String × β) → (String × β))
    (hf : ∀ p, (f p).1 = p.1) (l : List (String × β)) (k : String) :
    (l.map f).find? (fun p => p.1 = k) = (l.find? (fun p => p.1 = k)).map f := by
  induction l with
  | nil => rfl
  | cons a t ih =>
    rw [List.map_cons]
    by_cases h : a.1 = k
    · rw [List.find?_cons_of_pos _ (by simp [hf, h]),
        List.find?_cons_of_pos _ (by simp [h])]
      rfl
    · rw [List.find?_cons_of_neg _ (by simp [hf, h]),
        List.find?_cons_of_neg _ (by simp [h])]
      exact ih

/-- An element of the start list survives the duplicate-avoiding append fold. -/
theorem mem_foldl_insFile (names : List String) :
    ∀ (init : List String) (x : String), x ∈ init →
      x ∈ names.foldl (fun fls n => if n ∈ fls then fls else fls ++ [n]) init := by
  induction names with
  | nil => intro init x hx; exact hx
  | cons n t ih =>
    intro init x hx
    rw [List.foldl_cons]
    refine ih _ x ?_
    by_cases h : n ∈ init
    · rw [if_pos h]; exact hx
    · rw [if_neg h]; exact List.mem_append_left _ hx

/-- Every written name is present after the duplicate-avoiding append fold. -/
theorem mem_foldl_insFile_names (names : List String) :
    ∀ (init : List String) (x : String), x ∈ names →
      x ∈ names.foldl (fun fls n => if n ∈ fls then fls else fls ++ [n]) init := by
  induction names with
  | nil => intro init x hx; simp at hx
  | cons n t ih =>
    intro init x hx
    rw [List.foldl_cons]
    rcases List.mem_cons.mp hx with rfl | hx
    · refine mem_foldl_insFile t _ x ?_
      by_cases h : x ∈ init
      · rw [if_pos h]; exact h
      · rw [if_neg h]; exact List.mem_append_right _ (List.mem_singleton.mpr rfl)
    · exact ih _ x hx

/-- Adding file names preserves the set of directories. -/
theorem FS.hasDir_writeFiles (fs : FS) (label : String) (names : List String) (k : String) :
    (fs.writeFiles label names).hasDir k = fs.hasDir k := by
  unfold FS.hasDir FS.writeFiles
  dsimp only
  rw [find?_map_fst_eq _ (fun p => by by_cases h : p.1 = label <;> simp [h])]
  cases fs.dirs.find? (fun p => p.1 = k) <;> rfl

/-- Files of the target directory after a write: the fold-appended list. -/
theorem FS.filesOf_writeFiles_self (fs : FS) (label : String) (names : List String)
    (h : fs.hasDir label = true) :
    (fs.writeFiles label names).filesOf label =
      names.foldl (fun fls n => if n ∈ fls then fls else fls ++ [n]) (fs.filesOf label) := by
  unfold FS.filesOf FS.writeFiles
  dsimp only
  rw [find?_map_fst_eq _ (fun p => by by_cases hh : p.1 = label <;> simp [hh])]
  unfold FS.hasDir at h
  cases hfind : fs.dirs.find? (fun p => p.1 = label) with
  | none => rw [hfind] at h; simp at h
  | some p =>
      have hp : p.1 = label := by simpa using List.find?_some hfind
      simp [hp]

/-- Every existing file survives a write. -/
theorem FS.mem_filesOf_writeFiles (fs : FS) (label : String) (names : List String)
    (k : String) {x : String} (hx : x ∈ fs.filesOf k) :
    x ∈ (fs.writeFiles label names).filesOf k := by
  unfold FS.filesOf at hx
  unfold FS.filesOf FS.writeFiles
  dsimp only at hx ⊢
  rw [find?_map_fst_eq _ (fun p => by by_cases hh : p.1 = label <;> simp [hh])]
  cases hfind : fs.dirs.find? (fun p => p.1 = k) with
  | none => rw [hfind] at hx; simp at hx
  | some p =>
      rw [hfind] at hx
      have hx2 : x ∈ p.2 := by simpa using hx
      show x ∈ (if p.1 = label then
        (p.1, names.foldl (fun fls n => if n ∈ fls then fls else fls ++ [n]) p.2) else p).2
      by_cases hh : p.1 = label
      · rw [if_pos hh]
        exact mem_foldl_insFile names p.2 x hx2
      · rw [if_neg hh]
        exact hx2

/-- `mkdir` on an existing directory is a no-op. -/
theorem FS.mkdir_of_hasDir (fs : FS) (label : String) (h : fs.hasDir label = true) :
    fs.mkdir label = fs := by
  unfold FS.mkdir
  rw [if_pos h]

/-- After `mkdir`, the directory exists. -/
theorem FS.hasDir_mkdir_self (fs : FS) (label : String) :
    (fs.mkdir label).hasDir label = true := by
  unfold FS.mkdir
  by_cases h : fs.hasDir label = true
  · rw [if_pos h]
    exact h
  · rw [if_neg h]
    unfold FS.hasDir
    dsimp only
    rw [List.find?_append]
    have h0 : fs.dirs.find? (fun p => p.1 = label) = none := by
      unfold FS.hasDir at h
      cases hq : fs.dirs.find? (fun p => p.1 = label) with
      | none => rfl
      | some p => rw [hq] at h; simp at h
    rw [h0, Option.none_or]
    simp [List.find?]

/-- `mkdir` keeps every existing directory. -/
theorem FS.hasDir_mkdir_mono (fs : FS) (label k : String) (h : fs.hasDir k = true) :
    (fs.mkdir label).hasDir k = true := by
  unfold FS.mkdir
  by_cases hh : fs.hasDir label = true
  · rw [if_pos hh]
    exact h
  · rw [if_neg hh]
    unfold FS.hasDir at h ⊢
    dsimp only
    rw [List.find?_append]
    cases hq : fs.dirs.find? (fun p => p.1 = k) with
    | none => rw [hq] at h; simp at h
    | some p => rw [some_or_eq]; rfl

/-- `mkdir` changes no directory's file list. -/
theorem FS.filesOf_mkdir (fs : FS) (label k : String) :
    (fs.mkdir label).filesOf k = fs.filesOf k := by
  unfold FS.mkdir
  by_cases hh : fs.hasDir label = true
  · rw [if_pos hh]
  · rw [if_neg hh]
    unfold FS.filesOf
    dsimp only
    rw [List.find?_append]
    cases hq : fs.dirs.find? (fun p => p.1 = k) with
    | none =>
        rw [Option.none_or]
        by_cases hk : label = k
        · rw [List.find?_cons_of_pos _ (by simp [hk])]
          rfl
        · rw [List.find?_cons_of_neg _ (by simp [hk])]
          rfl
    | some p => rw [some_or_eq]

/-- Filesystem growth is reflexive. -/
theorem FS.le_refl (fs : FS) : FS.le fs fs :=
  fun _ => ⟨fun h => h, fun _ hf => hf⟩

/-- Filesystem growth is transitive. -/
theorem FS.le_trans {a b c : FS} (h1 : FS.le a b) (h2 : FS.le b c) : FS.le a c :=
  fun label => ⟨fun h => (h2 label).1 ((h1 label).1 h),
    fun f hf => (h2 label).2 f ((h1 label).2 f hf)⟩

/-- `mkdir` only grows the filesystem. -/
theorem FS.le_mkdir (fs : FS) (label : String) : FS.le fs (fs.mkdir label) :=
  fun k => ⟨fun h => FS.hasDir_mkdir_mono fs label k h,
    fun f hf => by rw [FS.filesOf_mkdir]; exact hf⟩

/-- Writing files only grows the filesystem. -/
theorem FS.le_writeFiles (fs : FS) (label : String) (names : List String) :
    FS.le fs (fs.writeFiles label names) :=
  fun k => ⟨fun h => by rw [FS.hasDir_writeFiles]; exact h,
    fun f hf => FS.mem_filesOf_writeFiles fs label names k hf⟩

/-- Being backed up is monotone along filesystem growth. -/
theorem is_already_backed_up_mono {a b : FS} (h : FS.le a b) (k : String)
    (hk : is_already_backed_up a k = true) : is_already_backed_up b k = true := by
  simp only [is_already_backed_up, decide_eq_true_eq] at hk ⊢
  obtain ⟨h1, h2⟩ := hk
  refine ⟨(h k).1 h1, ?_⟩
  obtain ⟨x, hx⟩ := List.exists_mem_of_ne_nil _ h2
  exact List.ne_nil_of_mem ((h k).2 x hx)

/-- Writing an empty name list changes nothing. -/
theorem FS.writeFiles_nil (fs : FS) (label : String) : fs.writeFiles label [] = fs := by
  unfold FS.writeFiles
  cases fs with
  | mk dirs =>
    simp only [List.foldl_nil]
    congr 1
    conv_rhs => rw [← List.map_id dirs]
    refine List.map_congr_left (fun p hp => ?_)
    by_cases h : p.1 = label
    · rw [if_pos h]
      simpa using Prod.mk.eta
    · rw [if_neg h]
      rfl

/-! ### C3: run characterization -/

/-- A conversation already backed up is skipped (state unchanged) when not
forced — the skip rule of main.py lines 299-303. -/
theorem process_skip (st : FS × List (Kind × MetaRecord)) (cd : ConvData)
    (h : is_already_backed_up st.1 (labelOf cd) = true) :
    process_conversation false st cd = some st := by
  have h' : is_already_backed_up st.1 (conv_label cd.conv) = true := h
  simp [process_conversation, h']

/-- One backup pass: the filesystem only grows, the classified records are
exactly the processed conversations' records in order, each processed
conversation ends with its directory and date files present, and every
conversation is afterwards backed up or was processed in this pass. -/
theorem runFold_char :
    ∀ (convs : List ConvData) (fs : FS) (acc : List (Kind × MetaRecord))
      (fs' : FS) (recs' : List (Kind × MetaRecord)),
      convs.foldlM (process_conversation false) (fs, acc) = some (fs', recs') →
      FS.le fs fs' ∧
      ∃ ps, List.Sublist ps convs ∧ recs' = acc ++ ps.map recOf ∧
        (∀ cd ∈ ps, fs'.hasDir (labelOf cd) = true ∧ splitOk cd ∧
          ∀ n ∈ datesOf cd, n ∈ fs'.filesOf (labelOf cd)) ∧
        (∀ cd ∈ convs, is_already_backed_up fs' (labelOf cd) = true ∨ cd ∈ ps)
  | [], fs, acc, fs', recs', h => by
      have h' : some (fs, acc) = some (fs', recs') := h
      simp only [Option.some.injEq, Prod.mk.injEq] at h'
      obtain ⟨rfl, rfl⟩ := h'
      exact ⟨FS.le_refl fs, [], List.nil_sublist _, by simp, by simp, by simp⟩
  | cd :: t, fs, acc, fs', recs', h => by
      rw [List.foldlM_cons] at h
      by_cases hbk : is_already_backed_up fs (labelOf cd) = true
      · rw [process_skip (fs, acc) cd hbk] at h
        have h' : t.foldlM (process_conversation false) (fs, acc) = some (fs', recs') := h
        obtain ⟨hle, ps, hsub, hrecs, hprops, hdisj⟩ := runFold_char t fs acc fs' recs' h'
        refine ⟨hle, ps, hsub.cons cd, hrecs, hprops, ?_⟩
        intro x hx
        rcases List.mem_cons.mp hx with rfl | hx
        · exact Or.inl (is_already_backed_up_mono hle (labelOf x) hbk)
        · exact hdisj x hx
      · cases hstep : process_conversation false (fs, acc) cd with
        | none =>
            rw [hstep] at h
            simp at h
        | some st1 =>
            rw [hstep] at h
            have h' : t.foldlM (process_conversation false) st1 = some (fs', recs') := h
            have hbk' : ¬(is_already_backed_up fs (conv_label cd.conv) = true) := hbk
            simp only [process_conversation] at hstep
            rw [if_neg (fun hc => hbk' hc.2)] at hstep
            obtain ⟨fs2, hsave, hpair⟩ := Option.map_eq_some'.mp hstep
            subst hpair
            unfold save_messages_by_date at hsave
            have hmkle : FS.le fs (fs.mkdir (conv_label cd.conv)) := FS.le_mkdir _ _
            have hmkdir : (fs.mkdir (conv_label cd.conv)).hasDir (conv_label cd.conv) = true :=
              FS.hasDir_mkdir_self _ _
            have hkey : FS.le fs fs2 ∧ fs2.hasDir (conv_label cd.conv) = true ∧ splitOk cd ∧
                ∀ n ∈ datesOf cd, n ∈ fs2.filesOf (conv_label cd.conv) := by
              by_cases hemp : cd.messages.isEmpty = true
              · rw [if_pos hemp] at hsave
                obtain rfl : fs.mkdir (conv_label cd.conv) = fs2 := by
                  simpa using hsave
                refine ⟨hmkle, hmkdir, Or.inl hemp, ?_⟩
                intro n hn
                unfold datesOf at hn
                rw [if_pos hemp] at hn
                simp at hn
              · rw [if_neg hemp] at hsave
                obtain ⟨gs, hgs, hw⟩ := Option.map_eq_some'.mp hsave
                subst hw
                refine ⟨FS.le_trans hmkle (FS.le_writeFiles _ _ _), ?_,
                  Or.inr (by rw [hgs]; rfl), ?_⟩
                · rw [FS.hasDir_writeFiles]
                  exact hmkdir
                · intro n hn
                  have hdn : n ∈ gs.map (fun p => p.1 ++ ".json") := by
                    unfold datesOf at hn
                    rw [if_neg hemp, hgs] at hn
                    simpa using hn
                  rw [FS.filesOf_writeFiles_self _ _ _ hmkdir]
                  exact mem_foldl_insFile_names _ _ n hdn
            obtain ⟨hle2, hdir2, hsp2, hdates2⟩ := hkey
            obtain ⟨hle, ps, hsub, hrecs, hprops, hdisj⟩ := runFold_char t fs2
              (acc ++ [(classify_metadata cd.conv,
                generate_metadata cd.conv (conv_label cd.conv) cd.members)]) fs' recs' h'
            refine ⟨FS.le_trans hle2 hle, cd :: ps, hsub.cons₂ cd, ?_, ?_, ?_⟩
            · rw [hrecs,
                show (classify_metadata cd.conv,
                  generate_metadata cd.conv (conv_label cd.conv) cd.members) = recOf cd from rfl]
              simp [List.append_assoc]
            · intro x hx
              rcases List.mem_cons.mp hx with rfl | hx
              · exact ⟨(hle (labelOf x)).1 hdir2, hsp2,
                  fun n hn => (hle (labelOf x)).2 n (hdates2 n hn)⟩
              · exact hprops x hx
            · intro x hx
              rcases List.mem_cons.mp hx with rfl | hx
              · exact Or.inr (List.mem_cons_self _ _)
              · rcases hdisj x hx with hb | hp
                · exact Or.inl hb
                · exact Or.inr (List.mem_cons_of_mem _ hp)

/-- The second pass over an unchanged upstream: when every conversation is
either already backed up or re-saves nothing (its directory exists, its split
succeeds, and it has no date files), the pass leaves the filesystem untouched
and classifies exactly the not-yet-backed-up conversations' records. -/
theorem runFold_steady (fs1 : FS) :
    ∀ (convs : List ConvData) (acc : List (Kind × MetaRecord)),
      (∀ cd ∈ convs, is_already_backed_up fs1 (labelOf cd) = true ∨
        (fs1.hasDir (labelOf cd) = true ∧ splitOk cd ∧ datesOf cd = [])) →
      convs.foldlM (process_conversation false) (fs1, acc) =
        some (fs1, acc ++ (convs.filter
          (fun cd => ¬ is_already_backed_up fs1 (labelOf cd))).map recOf)
  | [], acc, _ => by simp
  | cd :: t, acc, H => by
      rw [List.foldlM_cons]
      by_cases hbk : is_already_backed_up fs1 (labelOf cd) = true
      · rw [process_skip (fs1, acc) cd hbk]
        show t.foldlM (process_conversation false) (fs1, acc) = _
        rw [runFold_steady fs1 t acc (fun x hx => H x (List.mem_cons_of_mem cd hx))]
        rw [List.filter_cons_of_neg (by simpa using hbk)]
      · obtain ⟨hdir, hsp, hdz⟩ :=
          (H cd (List.mem_cons_self cd t)).resolve_left hbk
        have hstep : process_conversation false (fs1, acc) cd =
            some (fs1, acc ++ [recOf cd]) := by
          have hbk' : ¬(is_already_backed_up fs1 (conv_label cd.conv) = true) := hbk
          simp only [process_conversation]
          rw [if_neg (fun hc => hbk' hc.2)]
          rw [FS.mkdir_of_hasDir fs1 (conv_label cd.conv) hdir]
          unfold save_messages_by_date
          by_cases hemp : cd.messages.isEmpty = true
          · rw [if_pos hemp]
            rfl
          · rw [if_neg hemp]
            obtain ⟨gs, hgs⟩ := Option.isSome_iff_exists.mp (hsp.resolve_left hemp)
            have hnames : gs.map (fun p => p.1 ++ ".json") = [] := by
              unfold datesOf at hdz
              rw [if_neg hemp, hgs] at hdz
              simpa using hdz
            rw [hgs, Option.map_some', hnames, FS.writeFiles_nil]
            rfl
        rw [hstep]
        show t.foldlM (process_conversation false) (fs1, acc ++ [recOf cd]) = _
        rw [runFold_steady fs1 t (acc ++ [recOf cd])
          (fun x hx => H x (List.mem_cons_of_mem cd hx))]
        rw [List.filter_cons_of_pos (by simpa using hbk)]
        simp [List.append_assoc]

/-! ### C3: metadata absorption across runs -/

/-- The records a conversation list classifies under one kind. -/
theorem recsOf_map_recOf (l : List ConvData) (k : Kind) :
    recsOf (l.map recOf) k =
      (l.filter (fun cd => classify_metadata cd.conv = k)).map
        (fun cd => generate_metadata cd.conv (labelOf cd) cd.members) := by
  unfold recsOf
  rw [List.filter_map, List.map_map]
  rfl

/-- The id keys those records carry are the conversations' ids. -/
theorem map_idKey_recsOf (l : List ConvData) (k : Kind) :
    (recsOf (l.map recOf) k).map idKey =
      (l.filter (fun cd => classify_metadata cd.conv = k)).map (fun cd => cd.conv.id) := by
  rw [recsOf_map_recOf, List.map_map]
  refine List.map_congr_left (fun cd hcd => ?_)
  show idKey (generate_metadata cd.conv (labelOf cd) cd.members) = cd.conv.id
  unfold idKey
  rw [lookupField_generate_id]

/-- Membership in one kind's slice of a conversation list's records. -/
theorem mem_recsOf_map_recOf {l : List ConvData} {k : Kind} {r : MetaRecord}
    (h : r ∈ recsOf (l.map recOf) k) :
    ∃ cd ∈ l, classify_metadata cd.conv = k ∧
      r = generate_metadata cd.conv (labelOf cd) cd.members := by
  rw [recsOf_map_recOf] at h
  obtain ⟨cd, hcd, hr⟩ := List.mem_map.mp h
  have hf := List.mem_filter.mp hcd
  exact ⟨cd, hf.1, by simpa using hf.2, hr.symm⟩

/-- Re-merging a later pass's records (a subfamily of the first pass's
records, over conversations with distinct ids) into the first pass's merged
file leaves it unchanged. -/
theorem merge_kind_steady (convs ps qs : List ConvData) (E M : List MetaRecord) (k : Kind)
    (hid : (convs.map (fun cd => cd.conv.id)).Nodup)
    (hps : List.Sublist ps convs)
    (hqs : List.Sublist qs convs)
    (hqp : ∀ cd ∈ qs, cd ∈ ps)
    (hE : ∀ r ∈ E, ∃ v, lookupField r "id" = some (JValue.s v))
    (hM : merge_metadata E (recsOf (ps.map recOf) k) = some M) :
    merge_metadata M (recsOf (qs.map recOf) k) = some M := by
  have hgenid : ∀ l : List ConvData, ∀ r ∈ recsOf (l.map recOf) k,
      ∃ v, lookupField r "id" = some (JValue.s v) := by
    intro l r hr
    obtain ⟨cd, hcd, hk, rfl⟩ := mem_recsOf_map_recOf hr
    exact ⟨cd.conv.id, lookupField_generate_id _ _ _⟩
  obtain ⟨M', hm', hmem, hids, hstrict, hfind⟩ :=
    merge_metadata_spec E (recsOf (ps.map recOf) k) (by
      intro r hr
      rcases List.mem_append.mp hr with hh | hh
      · exact hE r hh
      · exact hgenid ps r hh)
  have hMM : M' = M := by
    rw [hm'] at hM
    exact Option.some.inj hM
  subst hMM
  have hpsid : (ps.map (fun cd => cd.conv.id)).Nodup :=
    List.Nodup.sublist (hps.map _) hid
  have hqsid : (qs.map (fun cd => cd.conv.id)).Nodup :=
    List.Nodup.sublist (hqs.map _) hid
  have hN1id : ((recsOf (ps.map recOf) k).map idKey).Nodup := by
    rw [map_idKey_recsOf]
    exact List.Nodup.sublist ((List.filter_sublist _).map _) hpsid
  have hN2id : ((recsOf (qs.map recOf) k).map idKey).Nodup := by
    rw [map_idKey_recsOf]
    exact List.Nodup.sublist ((List.filter_sublist _).map _) hqsid
  refine merge_metadata_absorb M' (recsOf (qs.map recOf) k)
    (fun r hr => ?_) (fun r hr => hgenid qs r hr) hids hstrict (fun r hr => ?_)
  · rcases List.mem_append.mp (hmem r hr) with hh | hh
    · exact hE r hh
    · exact hgenid ps r hh
  · obtain ⟨cd, hcdqs, hk, rfl⟩ := mem_recsOf_map_recOf hr
    have hrN1 : generate_metadata cd.conv (labelOf cd) cd.members ∈
        recsOf (ps.map recOf) k := by
      rw [recsOf_map_recOf]
      exact List.mem_map_of_mem _ (List.mem_filter.mpr ⟨hqp cd hcdqs, by simpa using hk⟩)
    have hRHS : (recsOf (qs.map recOf) k).reverse.find?
        (fun x => idKey x = idKey (generate_metadata cd.conv (labelOf cd) cd.members)) =
        some (generate_metadata cd.conv (labelOf cd) cd.members) := by
      refine find?_key_of_mem_nodup idKey ?_ (List.mem_reverse.mpr hr) rfl
      rw [List.map_reverse]
      exact List.nodup_reverse.mpr hN2id
    have hLHS : M'.find?
        (fun x => idKey x = idKey (generate_metadata cd.conv (labelOf cd) cd.members)) =
        some (generate_metadata cd.conv (labelOf cd) cd.members) := by
      rw [hfind (idKey (generate_metadata cd.conv (labelOf cd) cd.members))]
      rw [List.reverse_append, List.find?_append]
      have h1 : (recsOf (ps.map recOf) k).reverse.find?
          (fun x => idKey x = idKey (generate_metadata cd.conv (labelOf cd) cd.members)) =
          some (generate_metadata cd.conv (labelOf cd) cd.members) := by
        refine find?_key_of_mem_nodup idKey ?_ (List.mem_reverse.mpr hrN1) rfl
        rw [List.map_reverse]
        exact List.nodup_reverse.mpr hN1id
      rw [h1, some_or_eq]
    rw [hLHS, hRHS]

/-- C3: running the backup twice against an unchanged upstream state with no
force flag is idempotent — a conversation whose directory exists with at
least one `.json` file is skipped (state unchanged), the second run writes
nothing (the filesystem stays exactly the first run's), and re-merging the
second run's records leaves every metadata file identical to the first
run's output. -/
theorem c3_backup_idempotent (convs : List ConvData) (fs0 fs1 : FS)
    (mf0 mf1 : MetaFiles)
    (hid : (convs.map (fun cd => cd.conv.id)).Nodup)
    (hch : ∀ r ∈ mf0.channels, ∃ v, lookupField r "id" = some (JValue.s v))
    (hgr : ∀ r ∈ mf0.groups, ∃ v, lookupField r "id" = some (JValue.s v))
    (hdm : ∀ r ∈ mf0.dms, ∃ v, lookupField r "id" = some (JValue.s v))
    (hmp : ∀ r ∈ mf0.mpims, ∃ v, lookupField r "id" = some (JValue.s v))
    (h1 : backupRun false convs fs0 mf0 = some (fs1, mf1)) :
    (∀ (st : FS × List (Kind × MetaRecord)) (cd : ConvData),
      is_already_backed_up st.1 (labelOf cd) = true →
      process_conversation false st cd = some st) ∧
    backupRun false convs fs1 mf1 = some (fs1, mf1) := by
  refine ⟨fun st cd h => process_skip st cd h, ?_⟩
  unfold backupRun at h1
  obtain ⟨st, hrun1, hmap1⟩ := Option.bind_eq_some.mp h1
  obtain ⟨mf1', hsave1, hpair1⟩ := Option.map_eq_some'.mp hmap1
  obtain ⟨fs1', recs1⟩ := st
  rw [Prod.mk.injEq] at hpair1
  obtain ⟨rfl, rfl⟩ := hpair1
  unfold runConversations at hrun1
  obtain ⟨hle, ps, hsub, hrecs1, hprops, hdisj⟩ := runFold_char convs fs0 [] fs1' recs1 hrun1
  rw [List.nil_append] at hrecs1
  subst hrecs1
  have H2 : ∀ cd ∈ convs, is_already_backed_up fs1' (labelOf cd) = true ∨
      (fs1'.hasDir (labelOf cd) = true ∧ splitOk cd ∧ datesOf cd = []) := by
    intro cd hcd
    rcases hdisj cd hcd with hb | hp
    · exact Or.inl hb
    · by_cases hbk : is_already_backed_up fs1' (labelOf cd) = true
      · exact Or.inl hbk
      · obtain ⟨hdir, hsp, hdates⟩ := hprops cd hp
        refine Or.inr ⟨hdir, hsp, ?_⟩
        have hempty : fs1'.filesOf (labelOf cd) = [] := by
          by_contra hne
          exact hbk (by
            simp only [is_already_backed_up, decide_eq_true_eq]
            exact ⟨hdir, hne⟩)
        cases hd : datesOf cd with
        | nil => rfl
        | cons n ns =>
            have hn := hdates n (by rw [hd]; exact List.mem_cons_self n ns)
            rw [hempty] at hn
            simp at hn
  have hrun2 : runConversations false convs fs1' = some (fs1',
      (convs.filter (fun cd => ¬ is_already_backed_up fs1' (labelOf cd))).map recOf) := by
    unfold runConversations
    rw [runFold_steady fs1' convs [] H2, List.nil_append]
  have hqp : ∀ cd ∈ convs.filter (fun cd => ¬ is_already_backed_up fs1' (labelOf cd)),
      cd ∈ ps := by
    intro cd hcd
    have hm := List.mem_filter.mp hcd
    rcases hdisj cd hm.1 with hb | hp
    · exact absurd hb (by simpa using hm.2)
    · exact hp
  unfold save_metadata at hsave1
  obtain ⟨c1, hc1, hsave1⟩ := Option.bind_eq_some.mp hsave1
  obtain ⟨g1, hg1, hsave1⟩ := Option.bind_eq_some.mp hsave1
  obtain ⟨d1, hd1, hsave1⟩ := Option.bind_eq_some.mp hsave1
  obtain ⟨m1, hm1, hsave1⟩ := Option.bind_eq_some.mp hsave1
  have hmf1 : (⟨c1, g1, d1, m1⟩ : MetaFiles) = mf1' := Option.some.inj hsave1
  subst hmf1
  have hfsub : List.Sublist
      (convs.filter (fun cd => ¬ is_already_backed_up fs1' (labelOf cd))) convs :=
    List.filter_sublist _
  have hc2 := merge_kind_steady convs ps _ mf0.channels c1 Kind.channels
    hid hsub hfsub hqp hch hc1
  have hg2 := merge_kind_steady convs ps _ mf0.groups g1 Kind.groups
    hid hsub hfsub hqp hgr hg1
  have hd2 := merge_kind_steady convs ps _ mf0.dms d1 Kind.dms
    hid hsub hfsub hqp hdm hd1
  have hm2 := merge_kind_steady convs ps _ mf0.mpims m1 Kind.mpims
    hid hsub hfsub hqp hmp hm1
  have hsave2 : save_metadata ⟨c1, g1, d1, m1⟩
      ((convs.filter (fun cd => ¬ is_already_backed_up fs1' (labelOf cd))).map recOf) =
      some ⟨c1, g1, d1, m1⟩ := by
    simp only [save_metadata, Option.bind_eq_bind]
    rw [hc2, Option.some_bind, hg2, Option.some_bind, hd2, Option.some_bind, hm2,
      Option.some_bind]
  unfold backupRun
  rw [hrun2]
  show (save_metadata ⟨c1, g1, d1, m1⟩
      ((convs.filter (fun cd => ¬ is_already_backed_up fs1' (labelOf cd))).map recOf)).map
        (fun mf2 => (fs1', mf2)) = some (fs1', ⟨c1, g1, d1, m1⟩)
  rw [hsave2]
  rfl

theorem c3_backup_idempotent_witness :
    (∀ (st : FS × List (Kind × MetaRecord)) (cd : ConvData),
      is_already_backed_up st.1 (labelOf cd) = true →
      process_conversation false st cd = some st) ∧
    backupRun false
      [{ conv := { id := "C1", is_im := true }, members := ["U1"], messages := [] }]
      ⟨[("C1", [])]⟩
      ⟨[], [], [[("id", JValue.s "C1"), ("members", JValue.strs ["U1", "U1"])]], []⟩ =
      some (⟨[("C1", [])]⟩,
        ⟨[], [], [[("id", JValue.s "C1"), ("members", JValue.strs ["U1", "U1"])]], []⟩) :=
  c3_backup_idempotent
    [{ conv := { id := "C1", is_im := true }, members := ["U1"], messages := [] }]
    ⟨[]⟩ ⟨[("C1", [])]⟩ ⟨[], [], [], []⟩
    ⟨[], [], [[("id", JValue.s "C1"), ("members", JValue.strs ["U1", "U1"])]], []⟩
    (by decide)
    (fun r hr => absurd hr (List.not_mem_nil r))
    (fun r hr => absurd hr (List.not_mem_nil r))
    (fun r hr => absurd hr (List.not_mem_nil r))
    (fun r hr => absurd hr (List.not_mem_nil r))
    (by decide)
